import Mathlib

/-!
Verification of the fastdtw repository (FastDTW: approximate dynamic time
warping).  The definitions below are a shallow embedding of the source files:

* `src/fastdtw/_fastdtw.pyx` — the optimized Cython implementation (struct
  `CostEntry`, `fastdtw`, `__fastdtw`, `dtw`, `__reduce_by_half`,
  `__expand_window`, `__get_cost`).  `src/unnamed/part_000` and
  `src/unnamed/part_001` contain the same algorithm line for line (they differ
  only in C++ data-structure plumbing), so one embedding covers all three.
* `src/fastdtw/fastdtw.pyx` — the pure-Python variant whose `dtw` uses a
  `defaultdict` with default `(inf,)` and a different branch order; it is
  embedded separately as `dtwPy`.

Modelling conventions:
* IEEE doubles are modelled as exact rationals; the `INFINITY` placeholder for
  absent cells becomes the top element of `WithTop ℚ`.
* The C++ `std::map` cost table is a sparse function `ℤ × ℤ → Option CostEntry`;
  `operator[]` on an absent key value-initializes the struct (cost `0.0`,
  predecessor `(0,0)`), which `lookupEntry` reproduces.
* Unbounded loops (path backtracking, the recursion of `__fastdtw`) take an
  explicit fuel argument; every use below supplies fuel that provably exceeds
  the loop length, so fuel exhaustion is unreachable in these uses.
* Sequence indexing `x[i-1]` is modelled by `elem`; every computation performed
  in this development indexes in range, where `elem` agrees with the source.
-/

namespace FastDTW

/-- Cumulative costs: exact rationals together with a top element standing for
the C `INFINITY` used for absent cost-table cells. -/
abbrev Cost := WithTop ℚ

/-- Mirror of `cdef struct CostEntry` (`_fastdtw.pyx` lines 16-19): the
cumulative cost of a cell and the (internal, 1-based) coordinates of its
predecessor. -/
structure CostEntry where
  cost : Cost
  prev_x_idx : ℤ
  prev_y_idx : ℤ
  deriving DecidableEq

/-- Sparse cost table `D : map[pair[int,int], CostEntry]`, modelled as an
association list in which the most recent write for a key shadows older ones
(the overwrite semantics of `std::map::operator[]` assignment). -/
def CostTable := List ((ℤ × ℤ) × CostEntry)

/-- Write one key of the table (`D[key] = cost_entry`). -/
def tableSet (D : CostTable) (k : ℤ × ℤ) (e : CostEntry) : CostTable :=
  (k, e) :: D

/-- Read one key of the table, `none` when the key was never written. -/
def tableGet (D : CostTable) (k : ℤ × ℤ) : Option CostEntry :=
  match D.find? (fun q => q.1 = k) with
  | some q => some q.2
  | none => none

/-- The table holding only the origin entry, `D[(0,0)] = {0, 0, 0}`
(`_fastdtw.pyx` lines 153-157). -/
def initTable : CostTable :=
  [(((0 : ℤ), (0 : ℤ)), ⟨0, 0, 0⟩)]

/-- Mirror of `__get_cost` (`_fastdtw.pyx` lines 270-280): the cost stored at
`(i, j)`, or `INFINITY` when the key is absent. -/
def get_cost (D : CostTable) (i j : ℤ) : Cost :=
  match tableGet D (i, j) with
  | some e => e.cost
  | none => ⊤

/-- The C++ `std::map::operator[]` read used by the backtracking loop and the
final cost lookup: an absent key yields a value-initialized `CostEntry`
(cost `0.0`, predecessor `(0, 0)`). -/
def lookupEntry (D : CostTable) (i j : ℤ) : CostEntry :=
  (tableGet D (i, j)).getD ⟨0, 0, 0⟩

/-- Element access `x[t]`; all uses in this development index in range. -/
def elem (x : List ℚ) (t : ℤ) : ℚ :=
  x.getD t.toNat 0

/-- The three-way predecessor selection of the solver (`_fastdtw.pyx` lines
178-191, identical in `part_000` lines 63-76 and `part_001` lines 68-81):
strict test for "up" first, then `left < corner`, with "corner" as the
fallback branch. -/
def dtwStep (cost_up cost_left cost_cnr : Cost) (dt : ℚ) (i j : ℤ) : CostEntry :=
  if cost_up < cost_left ∧ cost_up < cost_cnr then
    ⟨cost_up + (dt : Cost), i - 1, j⟩
  else if cost_left < cost_cnr then
    ⟨cost_left + (dt : Cost), i, j - 1⟩
  else
    ⟨cost_cnr + (dt : Cost), i - 1, j - 1⟩

/-- One iteration of the solver loop (`_fastdtw.pyx` lines 159-193) for the
window cell `p` (0-based); the processed internal cell is `(p.1 + 1, p.2 + 1)`
as set up by the `window_vec` shift on lines 113-116. -/
def dtwProcessCell (x y : List ℚ) (dist : ℚ → ℚ → ℚ) (D : CostTable) (p : ℤ × ℤ) :
    CostTable :=
  let i := p.1 + 1
  let j := p.2 + 1
  let dt := dist (elem x (i - 1)) (elem y (j - 1))
  let e :=
    dtwStep (get_cost D (i - 1) j) (get_cost D i (j - 1)) (get_cost D (i - 1) (j - 1)) dt i j
  tableSet D (i, j) e

/-- The cost table produced by running the solver loop over a window list. -/
def dtwTable (x y : List ℚ) (w : List (ℤ × ℤ)) (dist : ℚ → ℚ → ℚ) : CostTable :=
  w.foldl (dtwProcessCell x y dist) initTable

/-- The full cross-product window `[(i, j) for i in range(len_x) for j in
range(len_y)]` substituted when `window is None` (`_fastdtw.pyx` lines
109-110). -/
def fullWindow (lx ly : ℕ) : List (ℤ × ℤ) :=
  (List.range lx).flatMap fun a => (List.range ly).map fun (b : ℕ) => ((a : ℤ), (b : ℤ))

/-- The backtracking loop (`_fastdtw.pyx` lines 195-202), which appends the
0-based cell `(i-1, j-1)` and follows the predecessor link until the origin;
`fuel` bounds the iteration count and is chosen large enough at every call
site. -/
def backtrack (D : CostTable) : ℕ → ℤ → ℤ → List (ℤ × ℤ)
  | 0, _, _ => []
  | fuel + 1, i, j =>
    if i = 0 ∧ j = 0 then []
    else
      (i - 1, j - 1) :: backtrack D fuel (lookupEntry D i j).prev_x_idx (lookupEntry D i j).prev_y_idx

/-- Mirror of `dtw` (`_fastdtw.pyx` lines 102-203): run the solver over the
window (or the full grid), read the final cost at `(len_x, len_y)` through the
defaulting `operator[]`, and backtrack the path.  The source appends and then
reverses; here `backtrack` builds the reversed path directly. -/
def dtw (x y : List ℚ) (window : Option (List (ℤ × ℤ))) (dist : ℚ → ℚ → ℚ) :
    Cost × List (ℤ × ℤ) :=
  let w := window.getD (fullWindow x.length y.length)
  let D := dtwTable x y w dist
  ((lookupEntry D x.length y.length).cost,
    (backtrack D (x.length + y.length + w.length + 2) x.length y.length).reverse)

/-- The default distance `lambda a, b: abs(a - b)`. -/
def defaultDist : ℚ → ℚ → ℚ := fun a b => |a - b|

/-- Mirror of `__reduce_by_half`: pairwise averages, dropping a trailing
unpaired element. -/
def reduce_by_half : List ℚ → List ℚ
  | a :: b :: rest => (a + b) / 2 :: reduce_by_half rest
  | _ => []

/-- The integer interval `[lo, hi]` as a list, empty when `hi < lo` (the
Python `range(lo, hi + 1)`). -/
def intRange (lo hi : ℤ) : List ℤ :=
  (List.range (hi + 1 - lo).toNat).map fun (n : ℕ) => lo + (n : ℤ)

/-- The dilation offsets `[(a, b) for a in range(-radius, radius+1) for b in
range(-radius, radius+1)]` of `__expand_window`. -/
def offsets (r : ℤ) : List (ℤ × ℤ) :=
  (intRange (-r) r).flatMap fun a => (intRange (-r) r).map fun b => (a, b)

/-- The dilated coarse path `path_` of `__expand_window` (`_fastdtw.pyx` lines
232-236): every path cell translated by every offset.  The source stores these
in a `std::set`; only membership matters downstream, so a list with duplicates
is an equivalent model. -/
def halo (path : List (ℤ × ℤ)) (r : ℤ) : List (ℤ × ℤ) :=
  path.flatMap fun p => (offsets r).map fun o => (p.1 + o.1, p.2 + o.2)

/-- The projection `window_` of `__expand_window` (`_fastdtw.pyx` lines
238-247): the four full-resolution children of every dilated cell. -/
def children (cells : List (ℤ × ℤ)) : List (ℤ × ℤ) :=
  cells.flatMap fun p =>
    [(2 * p.1, 2 * p.2), (2 * p.1, 2 * p.2 + 1), (2 * p.1 + 1, 2 * p.2), (2 * p.1 + 1, 2 * p.2 + 1)]

/-- The inner column scan of the row-compaction loop (`_fastdtw.pyx` lines
252-259): walk the remaining columns `js`, append every candidate column,
record the first one in `new_start_j`, and break at the first non-candidate
after the run started.  Returns the appended columns and the final
`new_start_j`. -/
def rowScan (cand : ℤ → ℤ → Bool) (i : ℤ) : List ℤ → ℤ → List ℤ × ℤ
  | [], nsj => ([], nsj)
  | j :: js, nsj =>
    if cand i j then
      let r := rowScan cand i js (if nsj = -1 then j else nsj)
      (j :: r.1, r.2)
    else if nsj ≠ -1 then ([], nsj)
    else rowScan cand i js nsj

/-- The outer row loop of the compaction phase (`_fastdtw.pyx` lines 249-261):
scan each row from the `start_j` cursor, then set the cursor to the returned
`new_start_j` (which is `-1` when the row appended nothing, since
`new_start_j` is initialized to `-1` on line 252). -/
def compactRows (cand : ℤ → ℤ → Bool) (ly : ℤ) : List ℤ → ℤ → List (ℤ × ℤ)
  | [], _ => []
  | i :: is, sj =>
    ((rowScan cand i (intRange sj (ly - 1)) (-1)).1.map fun j => (i, j)) ++
      compactRows cand ly is (rowScan cand i (intRange sj (ly - 1)) (-1)).2

/-- Mirror of `__expand_window` (`_fastdtw.pyx` lines 218-262): dilate the
coarse path, project to full resolution, and compact rows starting the cursor
at column 0. -/
def expand_window (path : List (ℤ × ℤ)) (lx ly : ℕ) (r : ℤ) : List (ℤ × ℤ) :=
  compactRows (fun i j => (children (halo path r)).contains (i, j)) (ly : ℤ)
    (intRange 0 ((lx : ℤ) - 1)) 0

/-- Mirror of `__fastdtw` together with the recursive re-entry through
`fastdtw` (`_fastdtw.pyx` lines 75-88): below the base-case size run exact
`dtw`; otherwise coarsen both inputs, recurse, expand the coarse path into a
window and re-solve.  The fuel bounds the recursion depth; `none` models the
non-terminating recursion that the source exhibits when both sequences stop
shrinking (possible only for `radius ≤ -2`). -/
def fastdtwAux (dist : ℚ → ℚ → ℚ) : ℕ → List ℚ → List ℚ → ℤ → Option (Cost × List (ℤ × ℤ))
  | 0, _, _, _ => none
  | fuel + 1, x, y, radius =>
    if (x.length : ℤ) < radius + 2 ∨ (y.length : ℤ) < radius + 2 then
      some (dtw x y none dist)
    else
      match fastdtwAux dist fuel (reduce_by_half x) (reduce_by_half y) radius with
      | none => none
      | some (_, path) =>
        some (dtw x y (some (expand_window path x.length y.length radius)) dist)

/-- The public `fastdtw` entry point (`_fastdtw.pyx` lines 22-72).  The only
validation the source performs there concerns a numeric `dist` argument
(`dist <= 0`) and 2-d array widths; with a functional `dist` it simply calls
`__fastdtw(x, y, radius, dist)`, and no validation of `radius` exists
anywhere.  The fuel `x.length + 1` exceeds the recursion depth whenever the
recursion terminates at all (each level at least halves a positive length). -/
def fastdtw (x y : List ℚ) (radius : ℤ) (dist : ℚ → ℚ → ℚ) :
    Option (Cost × List (ℤ × ℤ)) :=
  fastdtwAux dist (x.length + 1) x y radius

/-!
The pure-Python variant `dtw` of `src/fastdtw/fastdtw.pyx` (lines 24-66).  Its
cost table is a `defaultdict` whose default value is the 1-tuple `(inf,)`;
computed cells hold 3-tuples `(cost, prev_i, prev_j)`.  Reading the
predecessor out of a default 1-tuple (`D[i, j][1]`) raises `IndexError`, which
the embedding models as a `none` result.
-/

/-- An entry of the Python cost table: the cost, and the predecessor when the
entry is a computed 3-tuple (`none` models the default 1-tuple `(inf,)`,
whose cost component is `inf`). -/
def PyEntry := Cost × Option (ℤ × ℤ)

/-- The Python `defaultdict` cost table, as an association list (most recent
write shadows older ones). -/
def PyTable := List ((ℤ × ℤ) × PyEntry)

/-- Read a key of the Python table; an absent key yields the default
`(inf,)`, modelled as `(⊤, none)`. -/
def pyGet (D : PyTable) (k : ℤ × ℤ) : PyEntry :=
  match D.find? (fun q => q.1 = k) with
  | some q => q.2
  | none => (⊤, none)

/-- The initial Python table, `D[0, 0] = (0, 0, 0)`. -/
def pyInit : PyTable :=
  [(((0 : ℤ), (0 : ℤ)), ((0 : Cost), some ((0 : ℤ), (0 : ℤ))))]

/-- The three-way selection of the regular branch of the Python solver
(`fastdtw.pyx` lines 50-57), written for the window cell `(i, j)`:
`d_00 = D[i,j]` is the corner predecessor of the written cell
`(i+1, j+1)`, `d_10 = D[i+1,j]` the left one, `d_01 = D[i,j+1]` the up one.
The corner is tested first here, unlike `dtwStep`. -/
def pyChoice (d00 d10 d01 : Cost) (dt : ℚ) (i j : ℤ) : PyEntry :=
  if d00 < d10 ∧ d00 < d01 then
    (d00 + (dt : Cost), some (i, j))
  else if d10 < d01 then
    (d10 + (dt : Cost), some (i + 1, j))
  else
    (d01 + (dt : Cost), some (i, j + 1))

/-- One iteration of the Python solver loop (`fastdtw.pyx` lines 36-57),
including the `j == len_y_p1` branch of lines 44-48 (never taken for window
columns in range, since `len_y_p1 = len_y + 1`). -/
def pyProcessCell (x y : List ℚ) (dist : ℚ → ℚ → ℚ) (len_y_p1 : ℤ) (D : PyTable)
    (p : ℤ × ℤ) : PyTable :=
  let i := p.1
  let j := p.2
  let dt := dist (elem x i) (elem y j)
  let d00 := (pyGet D (i, j)).1
  let d10 := (pyGet D (i + 1, j)).1
  if j = len_y_p1 then
    let e : PyEntry :=
      if d00 < d10 then (d00 + (dt : Cost), some (i, j))
      else (d10 + (dt : Cost), some (i, j + 1))
    ((i + 1, j + 1), e) :: D
  else
    let e := pyChoice d00 d10 (pyGet D (i, j + 1)).1 dt i j
    ((i + 1, j + 1), e) :: D

/-- The cost table produced by the Python solver loop. -/
def dtwTablePy (x y : List ℚ) (w : List (ℤ × ℤ)) (dist : ℚ → ℚ → ℚ) : PyTable :=
  w.foldl (pyProcessCell x y dist ((y.length : ℤ) + 1)) pyInit

/-- The Python backtracking loop (`fastdtw.pyx` lines 60-65); reading the
predecessor of a default `(inf,)` entry is an `IndexError`, modelled as
`none`. -/
def pyBacktrack (D : PyTable) : ℕ → ℤ → ℤ → Option (List (ℤ × ℤ))
  | 0, _, _ => none
  | fuel + 1, i, j =>
    if i = 0 ∧ j = 0 then some []
    else
      match (pyGet D (i, j)).2 with
      | none => none
      | some q => (pyBacktrack D fuel q.1 q.2).map (fun l => (i - 1, j - 1) :: l)

/-- Mirror of the pure-Python `dtw` (`fastdtw.pyx` lines 24-66); `none` models
the `IndexError` raised when backtracking reads a default entry. -/
def dtwPy (x y : List ℚ) (window : Option (List (ℤ × ℤ))) (dist : ℚ → ℚ → ℚ) :
    Option (Cost × List (ℤ × ℤ)) :=
  let w := window.getD (fullWindow x.length y.length)
  let D := dtwTablePy x y w dist
  match pyBacktrack D (x.length + y.length + w.length + 2) x.length y.length with
  | none => none
  | some p => some ((pyGet D (x.length, y.length)).1, p.reverse)

/-!
Auxiliary definitions used to state and settle the claims.
-/

/-- The row-compaction variant asserted by the specification: the cursor for
the next row is the first included column of the current row, and is left
unchanged (rather than set to `-1`) when the row contributed nothing.  This
definition transcribes the spec's words for comparison with `compactRows`,
which embeds the source. -/
def compactRowsClaimed (cand : ℤ → ℤ → Bool) (ly : ℤ) : List ℤ → ℤ → List (ℤ × ℤ)
  | [], _ => []
  | i :: is, sj =>
    ((rowScan cand i (intRange sj (ly - 1)) (-1)).1.map fun j => (i, j)) ++
      compactRowsClaimed cand ly is
        (if (rowScan cand i (intRange sj (ly - 1)) (-1)).2 = -1 then sj
         else (rowScan cand i (intRange sj (ly - 1)) (-1)).2)

/-- Window expansion under the spec's claimed cursor rule; compare with
`expand_window`. -/
def expand_window_claimed (path : List (ℤ × ℤ)) (lx ly : ℕ) (r : ℤ) : List (ℤ × ℤ) :=
  compactRowsClaimed (fun i j => (children (halo path r)).contains (i, j)) (ly : ℤ)
    (intRange 0 ((lx : ℤ) - 1)) 0

/-- Success of the backtracking loop: starting from internal cell `(i, j)`,
every cell visited before reaching the origin is present in the table (no
lookup falls back to the value-initialized default entry), and the origin is
reached within `fuel` steps.  This is the formal reading of "the solver
succeeds" for a window/distance pair. -/
def chainOk (D : CostTable) : ℕ → ℤ → ℤ → Bool
  | 0, i, j => decide (i = 0 ∧ j = 0)
  | fuel + 1, i, j =>
    if i = 0 ∧ j = 0 then true
    else
      match tableGet D (i, j) with
      | none => false
      | some e => chainOk D fuel e.prev_x_idx e.prev_y_idx

/-- Strict row-major (lexicographic) order on cells. -/
def lexLT (a b : ℤ × ℤ) : Prop :=
  a.1 < b.1 ∨ (a.1 = b.1 ∧ a.2 < b.2)

/-- The textbook dynamic-programming cost table for the inputs, in internal
(1-based) coordinates: `dtwDP (i+1) (j+1)` is the least cumulative cost of a
monotone chain from the origin to cell `(i+1, j+1)`, with the synthetic
boundary row and column at `⊤` and the origin at `0`.  Element access matches
`elem` so that the recurrence lines up with the solver's `dt` for every cell
the solver can process. -/
def dtwDP (x y : List ℚ) (dist : ℚ → ℚ → ℚ) : ℕ → ℕ → Cost
  | 0, 0 => 0
  | _ + 1, 0 => ⊤
  | 0, _ + 1 => ⊤
  | i + 1, j + 1 =>
    ((dist (x.getD i 0) (y.getD j 0) : ℚ) : Cost) +
      min (dtwDP x y dist i (j + 1)) (min (dtwDP x y dist (i + 1) j) (dtwDP x y dist i j))
  termination_by i j => (i, j)

/-- Lower-bound potential for cost-table entries: `⊤` for keys outside the
quadrant, `0` for the origin, and the textbook DP value at the nearest
in-quadrant internal cell otherwise.  Entries written at boundary keys
(reachable only through window cells with a `-1` coordinate) are bounded by
the clamped DP value, matching the clamped element access of `elem`. -/
def phi (x y : List ℚ) (dist : ℚ → ℚ → ℚ) (k : ℤ × ℤ) : Cost :=
  if k = (0, 0) then 0
  else if k.1 < 0 ∨ k.2 < 0 then ⊤
  else dtwDP x y dist (max k.1 1).toNat (max k.2 1).toNat

/-!
Helper lemmas.
-/

theorem tableGet_cons (D : CostTable) (k : ℤ × ℤ) (e : CostEntry) (q : ℤ × ℤ) :
    tableGet ((k, e) :: D) q = if q = k then some e else tableGet D q := by
  unfold tableGet
  rw [List.find?_cons]
  by_cases h : q = k
  · subst h; simp
  · simp [Ne.symm h, h]

theorem pyGet_cons (D : PyTable) (k : ℤ × ℤ) (e : PyEntry) (q : ℤ × ℤ) :
    pyGet ((k, e) :: D) q = if q = k then e else pyGet D q := by
  unfold pyGet
  rw [List.find?_cons]
  by_cases h : q = k
  · subst h; simp
  · simp [Ne.symm h, h]

theorem get_cost_cons (D : CostTable) (k : ℤ × ℤ) (e : CostEntry) (i j : ℤ) :
    get_cost ((k, e) :: D) i j = if (i, j) = k then e.cost else get_cost D i j := by
  unfold get_cost
  rw [tableGet_cons]
  by_cases h : (i, j) = k
  · rw [if_pos h, if_pos h]
  · rw [if_neg h, if_neg h]

theorem dtwStep_cost (u l c : Cost) (dt : ℚ) (i j : ℤ) :
    (dtwStep u l c dt i j).cost = min u (min l c) + (dt : Cost) := by
  unfold dtwStep
  split_ifs with h1 h2
  · have : min u (min l c) = u := min_eq_left (le_min h1.1.le h1.2.le)
    simp [this]
  · have hlu : l ≤ u := by
      rcases not_and_or.mp h1 with h | h
      · exact not_lt.mp h
      · exact h2.le.trans (not_lt.mp h)
    have : min u (min l c) = l := by
      rw [min_eq_left h2.le, min_eq_right hlu]
    simp [this]
  · have hcl : c ≤ l := not_lt.mp h2
    have hcu : c ≤ u := by
      rcases not_and_or.mp h1 with h | h
      · exact hcl.trans (not_lt.mp h)
      · exact not_lt.mp h
    have : min u (min l c) = c := by
      rw [min_eq_right hcl, min_eq_right hcu]
    simp [this]

theorem pyChoice_cost (d00 d10 d01 : Cost) (dt : ℚ) (i j : ℤ) :
    (pyChoice d00 d10 d01 dt i j).1 = min d00 (min d10 d01) + (dt : Cost) := by
  unfold pyChoice
  split_ifs with h1 h2
  · have : min d00 (min d10 d01) = d00 := min_eq_left (le_min h1.1.le h1.2.le)
    simp [this]
  · have hlu : d10 ≤ d00 := by
      rcases not_and_or.mp h1 with h | h
      · exact not_lt.mp h
      · exact h2.le.trans (not_lt.mp h)
    have : min d00 (min d10 d01) = d10 := by
      rw [min_eq_left h2.le, min_eq_right hlu]
    simp [this]
  · have hcl : d01 ≤ d10 := not_lt.mp h2
    have hcu : d01 ≤ d00 := by
      rcases not_and_or.mp h1 with h | h
      · exact hcl.trans (not_lt.mp h)
      · exact not_lt.mp h
    have : min d00 (min d10 d01) = d01 := by
      rw [min_eq_right hcl, min_eq_right hcu]
    simp [this]

theorem reduce_by_half_length : ∀ l : List ℚ, (reduce_by_half l).length = l.length / 2
  | [] => rfl
  | [a] => by
    have h : reduce_by_half [a] = [] := rfl
    simp only [h, List.length_nil, List.length_cons]
  | _ :: _ :: rest => by
    have ih := reduce_by_half_length rest
    simp only [reduce_by_half, List.length_cons, ih]
    omega

theorem fastdtwAux_neg_one_isSome (dist : ℚ → ℚ → ℚ) :
    ∀ (f : ℕ) (x y : List ℚ), x.length + 1 ≤ f →
      ∃ res, fastdtwAux dist f x y (-1) = some res := by
  intro f
  induction f with
  | zero => intro x y h; omega
  | succ f ih =>
    intro x y h
    rw [fastdtwAux]
    by_cases hb : (x.length : ℤ) < -1 + 2 ∨ (y.length : ℤ) < -1 + 2
    · exact ⟨_, by rw [if_pos hb]⟩
    · push_neg at hb
      have hx1 : 1 ≤ x.length := by
        have := hb.1
        omega
      have hlen : (reduce_by_half x).length + 1 ≤ f := by
        rw [reduce_by_half_length]
        omega
      obtain ⟨res, hres⟩ := ih (reduce_by_half x) (reduce_by_half y) hlen
      rw [if_neg (by push_neg; exact hb), hres]
      exact ⟨_, rfl⟩

/-!
Claim theorems.
-/

/-- C1: for `x = [1,2,3,4,5]`, `y = [2,3,4]`, the default distance and the
default radius 1, `fastdtw` returns cost `2.0` and path
`[(0,0),(1,0),(2,1),(3,2),(4,2)]`. -/
theorem C1_reference_case :
    fastdtw [1, 2, 3, 4, 5] [2, 3, 4] 1 defaultDist =
      some ((2 : Cost), [((0 : ℤ), (0 : ℤ)), (1, 0), (2, 1), (3, 2), (4, 2)]) := by
  with_unfolding_all rfl

/-- C3: whenever `radius ≥ max(len(x), len(y))`, `fastdtw x y radius dist`
returns exactly the result of exact DTW, `dtw x y none dist` (so in particular
the costs agree): the base-case test `len(x) < radius + 2` of `__fastdtw`
fires immediately. -/
theorem C3_radius_covers_grid (x y : List ℚ) (r : ℤ) (dist : ℚ → ℚ → ℚ)
    (h : ((max x.length y.length : ℕ) : ℤ) ≤ r) :
    fastdtw x y r dist = some (dtw x y none dist) := by
  have hx : (x.length : ℤ) < r + 2 := by
    have hle : x.length ≤ max x.length y.length := Nat.le_max_left _ _
    have : (x.length : ℤ) ≤ ((max x.length y.length : ℕ) : ℤ) := by exact_mod_cast hle
    omega
  unfold fastdtw
  rw [fastdtwAux]
  rw [if_pos (Or.inl hx)]

theorem C3_witness :
    ((max ([0] : List ℚ).length ([0] : List ℚ).length : ℕ) : ℤ) ≤ 1 ∧
      fastdtw [0] [0] 1 defaultDist = some (dtw [0] [0] none defaultDist) :=
  ⟨by decide, C3_radius_covers_grid [0] [0] 1 defaultDist (by decide)⟩

/-- C7 counterexample: calling `fastdtw` with `radius = -1` is not detected
as an error; on `x = y = [0]` it completes normally and returns the degenerate
result `(0.0, [(0, 0)])` (the window expansion is empty and the C++ map
defaults the terminal entry). -/
theorem C7_counterexample :
    fastdtw [0] [0] (-1) defaultDist = some ((0 : Cost), [((0 : ℤ), (0 : ℤ))]) := by
  with_unfolding_all rfl

/-- C7 amended: the source performs no validation of `radius` at all (the
`fastdtw` entry point of `_fastdtw.pyx` lines 63-72 only checks a numeric
`dist` and 2-d widths), so a negative radius is not surfaced as an
`InvalidRadius` error; with `radius = -1` the computation always completes
normally with some (degenerate) result. -/
theorem C7_amended_no_radius_validation (x y : List ℚ) (dist : ℚ → ℚ → ℚ) :
    ∃ res, fastdtw x y (-1) dist = some res :=
  fastdtwAux_neg_one_isSome dist (x.length + 1) x y (le_refl _)

/-- C9 counterexample: on the coarse path `[(0,2),(2,0)]` with
`len_x = len_y = 6` and `radius = 0`, row 2 contributes nothing and the
source sets the cursor to `-1` (so rows 4 and 5 are scanned from the start
and contribute `(4,0),(4,1),(5,0),(5,1)`), whereas the claimed
"cursor left unchanged" rule would keep the cursor at 4 and lose those
cells. -/
theorem C9_counterexample :
    expand_window [(0, 2), (2, 0)] 6 6 0 =
        [((0 : ℤ), (4 : ℤ)), (0, 5), (1, 4), (1, 5), (4, 0), (4, 1), (5, 0), (5, 1)] ∧
      expand_window_claimed [(0, 2), (2, 0)] 6 6 0 =
        [((0 : ℤ), (4 : ℤ)), (0, 5), (1, 4), (1, 5)] ∧
      decide (expand_window [(0, 2), (2, 0)] 6 6 0 =
        expand_window_claimed [(0, 2), (2, 0)] 6 6 0) = false := by
  refine ⟨by with_unfolding_all rfl, by with_unfolding_all rfl, by with_unfolding_all rfl⟩

/-- C5 counterexample: the tie-break order of the claim is not reproduced by
the `fastdtw.pyx` implementation.  On the all-tie cell (all three predecessor
costs 0, `dt = 0`, window cell `(0,0)` writing internal cell `(1,1)`), the
claimed rule — embedded as `dtwStep`, from `_fastdtw.pyx` — selects the
corner predecessor `(0,0)`, while `fastdtw.pyx`'s branch order (`pyChoice`)
falls through to its final branch and stores the up predecessor `(0,1)`. -/
theorem C5_counterexample :
    pyChoice 0 0 0 0 0 0 = ((0 : Cost), some ((0 : ℤ), (1 : ℤ))) ∧
      dtwStep 0 0 0 0 1 1 = ⟨(0 : Cost), 0, 0⟩ ∧
      decide ((((0 : ℤ), (1 : ℤ)) : ℤ × ℤ) = ((0 : ℤ), (0 : ℤ))) = false := by
  refine ⟨by with_unfolding_all rfl, by with_unfolding_all rfl, by with_unfolding_all rfl⟩

/-- C5 amended: the three-way comparison of the claim (up on strict double
win, else left if `left < corner`, else corner — so corner wins every tie it
is involved in) is exactly the cell step of `_fastdtw.pyx`, `part_000` and
`part_001`, all embedded as `dtwStep`; the chosen predecessor always carries
the minimum of the three costs.  (`fastdtw.pyx` tests the corner first
instead and breaks the all-tie towards the up predecessor, see the
counterexample.) -/
theorem C5_amended_tie_break (u l c : Cost) (dt : ℚ) (i j : ℤ) :
    (dtwStep u l c dt i j).cost = min u (min l c) + (dt : Cost) ∧
      (u < l → u < c → dtwStep u l c dt i j = ⟨u + (dt : Cost), i - 1, j⟩) ∧
      (¬(u < l ∧ u < c) → l < c → dtwStep u l c dt i j = ⟨l + (dt : Cost), i, j - 1⟩) ∧
      (¬(u < l ∧ u < c) → ¬(l < c) → dtwStep u l c dt i j = ⟨c + (dt : Cost), i - 1, j - 1⟩) ∧
      (c ≤ u → c ≤ l → dtwStep u l c dt i j = ⟨c + (dt : Cost), i - 1, j - 1⟩) := by
  refine ⟨dtwStep_cost u l c dt i j, ?_, ?_, ?_, ?_⟩
  · intro h1 h2
    unfold dtwStep
    rw [if_pos ⟨h1, h2⟩]
  · intro h1 h2
    unfold dtwStep
    rw [if_neg h1, if_pos h2]
  · intro h1 h2
    unfold dtwStep
    rw [if_neg h1, if_neg h2]
  · intro hcu hcl
    unfold dtwStep
    rw [if_neg (by intro h; exact absurd hcu (not_le.mpr h.2)), if_neg (not_lt.mpr hcl)]

theorem C5_witness :
    (0 : Cost) ≤ 0 ∧ dtwStep 0 0 0 (0 : ℚ) 1 1 = ⟨(0 : Cost) + ((0 : ℚ) : Cost), 0, 0⟩ :=
  ⟨le_refl 0, (C5_amended_tie_break 0 0 0 0 1 1).2.2.2.2 (le_refl 0) (le_refl 0)⟩

/-- C6 counterexample: the `dtw` of `fastdtw.pyx` and the `dtw` of
`_fastdtw.pyx`/`part_000`/`part_001` do not return identical results on every
input.  On `x = y = [0, 0]` with the full grid, the tie at the last cell is
broken differently: the optimized variant backtracks through the corner and
returns path `[(0,0),(1,1)]`, while the pure-Python variant goes through the
up predecessor and returns `[(0,0),(0,1),(1,1)]` (costs agree at 0). -/
theorem C6_counterexample :
    dtw [0, 0] [0, 0] none defaultDist = ((0 : Cost), [((0 : ℤ), (0 : ℤ)), (1, 1)]) ∧
      dtwPy [0, 0] [0, 0] none defaultDist =
        some ((0 : Cost), [((0 : ℤ), (0 : ℤ)), (0, 1), (1, 1)]) ∧
      decide (some (dtw [0, 0] [0, 0] none defaultDist) =
        dtwPy [0, 0] [0, 0] none defaultDist) = false := by
  refine ⟨by with_unfolding_all rfl, by with_unfolding_all rfl, by with_unfolding_all rfl⟩

theorem costTables_agree_fold (x y : List ℚ) (dist : ℚ → ℚ → ℚ) (lyp1 : ℤ) :
    ∀ (w : List (ℤ × ℤ)) (D : CostTable) (Dp : PyTable),
      (∀ k, get_cost D k.1 k.2 = (pyGet Dp k).1) →
      (∀ p ∈ w, p.2 ≠ lyp1) →
      ∀ k, get_cost (w.foldl (dtwProcessCell x y dist) D) k.1 k.2 =
        (pyGet (w.foldl (pyProcessCell x y dist lyp1) Dp) k).1 := by
  intro w
  induction w with
  | nil => intro D Dp hinv _ k; exact hinv k
  | cons p w ih =>
    intro D Dp hinv hw k
    simp only [List.foldl_cons]
    refine ih _ _ ?_ (fun q hq => hw q (List.mem_cons_of_mem p hq)) k
    intro q
    have hp2 : p.2 ≠ lyp1 := hw p (List.mem_cons_self p w)
    show get_cost (dtwProcessCell x y dist D p) q.1 q.2 =
      (pyGet (pyProcessCell x y dist lyp1 Dp p) q).1
    unfold dtwProcessCell pyProcessCell
    rw [if_neg hp2]
    show get_cost (tableSet D (p.1 + 1, p.2 + 1) _) q.1 q.2 = _
    unfold tableSet
    rw [get_cost_cons, pyGet_cons]
    by_cases hq : q = (p.1 + 1, p.2 + 1)
    · have hq1 : (q.1, q.2) = (p.1 + 1, p.2 + 1) := by rw [← hq]
      rw [if_pos hq1, if_pos hq]
      rw [dtwStep_cost, pyChoice_cost]
      have e1 : p.1 + 1 - 1 = p.1 := by omega
      have e2 : p.2 + 1 - 1 = p.2 := by omega
      rw [e1, e2]
      have hu : get_cost D p.1 (p.2 + 1) = (pyGet Dp (p.1, p.2 + 1)).1 := hinv (p.1, p.2 + 1)
      have hl : get_cost D (p.1 + 1) p.2 = (pyGet Dp (p.1 + 1, p.2)).1 := hinv (p.1 + 1, p.2)
      have hc : get_cost D p.1 p.2 = (pyGet Dp (p.1, p.2)).1 := hinv (p.1, p.2)
      rw [hu, hl, hc]
      congr 1
      generalize (pyGet Dp (p.1, p.2)).1 = a
      generalize (pyGet Dp (p.1 + 1, p.2)).1 = b
      generalize (pyGet Dp (p.1, p.2 + 1)).1 = d
      simp [min_assoc, min_comm, min_left_comm]
    · have hq1 : (q.1, q.2) ≠ (p.1 + 1, p.2 + 1) := by
        intro hcon
        exact hq (by rw [← hcon])
      rw [if_neg hq1, if_neg hq]
      exact hinv q

/-- C6 amended: the solvers of `_fastdtw.pyx`, `part_000` and `part_001` are
the same algorithm (one embedding, `dtw`, covers all three).  The pure-Python
`fastdtw.pyx` solver computes the same cumulative cost for every cell of the
cost table (for any window that avoids the dead `j == len_y + 1` branch, in
particular every window of in-range index pairs), but its different tie-break
order can return a different path, and its missing-terminal behavior (error)
differs from the C++ default (cost 0) — see the counterexample. -/
theorem C6_amended_same_costs (x y : List ℚ) (w : List (ℤ × ℤ)) (dist : ℚ → ℚ → ℚ)
    (hw : ∀ p ∈ w, p.2 ≠ (y.length : ℤ) + 1) (k : ℤ × ℤ) :
    get_cost (dtwTable x y w dist) k.1 k.2 = (pyGet (dtwTablePy x y w dist) k).1 := by
  refine costTables_agree_fold x y dist ((y.length : ℤ) + 1) w initTable pyInit ?_ hw k
  intro q
  show get_cost ((((0 : ℤ), (0 : ℤ)), (⟨0, 0, 0⟩ : CostEntry)) :: []) q.1 q.2 =
    (pyGet ((((0 : ℤ), (0 : ℤ)), ((0 : Cost), some ((0 : ℤ), (0 : ℤ)))) :: []) q).1
  rw [get_cost_cons, pyGet_cons]
  by_cases hq : q = ((0 : ℤ), (0 : ℤ))
  · have hq1 : (q.1, q.2) = ((0 : ℤ), (0 : ℤ)) := by rw [← hq]
    rw [if_pos hq1, if_pos hq]
  · have hq1 : (q.1, q.2) ≠ ((0 : ℤ), (0 : ℤ)) := by
      intro hcon
      exact hq (by rw [← hcon])
    rw [if_neg hq1, if_neg hq]
    rfl

theorem C6_witness :
    (∀ p ∈ ([(0, 0)] : List (ℤ × ℤ)), p.2 ≠ (([0] : List ℚ).length : ℤ) + 1) ∧
      get_cost (dtwTable [0] [0] [(0, 0)] defaultDist) 1 1 =
        (pyGet (dtwTablePy [0] [0] [(0, 0)] defaultDist) (1, 1)).1 :=
  ⟨by decide, C6_amended_same_costs [0] [0] [(0, 0)] defaultDist (by decide) (1, 1)⟩

theorem rowScan_nsj_stable (cand : ℤ → ℤ → Bool) (i : ℤ) :
    ∀ (js : List ℤ) (nsj : ℤ), nsj ≠ -1 → (rowScan cand i js nsj).2 = nsj := by
  intro js
  induction js with
  | nil => intro nsj _; rfl
  | cons j js ih =>
    intro nsj h
    unfold rowScan
    by_cases hc : cand i j
    · rw [if_pos hc, if_neg h]
      exact ih nsj h
    · rw [if_neg hc, if_pos h]

theorem rowScan_nsj_find (cand : ℤ → ℤ → Bool) (i : ℤ) :
    ∀ js : List ℤ, (-1 : ℤ) ∉ js →
      (rowScan cand i js (-1)).2 = ((js.find? fun j => cand i j).getD (-1)) := by
  intro js
  induction js with
  | nil => intro _; rfl
  | cons j js ih =>
    intro h
    have hj : j ≠ -1 := fun hc => h (hc ▸ List.mem_cons_self j js)
    have hrest : (-1 : ℤ) ∉ js := fun hc => h (List.mem_cons_of_mem j hc)
    unfold rowScan
    by_cases hc : cand i j
    · rw [if_pos hc, if_pos rfl, List.find?_cons_of_pos _ hc]
      exact (rowScan_nsj_stable cand i js j hj).trans rfl
    · rw [if_neg hc, if_neg (by simp), List.find?_cons_of_neg _ hc]
      exact ih hrest

/-- C9 amended: in the row compaction of `__expand_window`, the cursor used to
start scanning the next row is the first column the current row appended (the
first candidate found at or after the current cursor), and it is set to `-1`
— not left unchanged — when the current row appended nothing, so the next row
is scanned from column `-1`.  (The hypothesis excludes column `-1` itself
from the scanned range, where the source's `-1` sentinel would collide with a
real column; see the counterexample for the observable consequence of the
`-1` reset.) -/
theorem C9_amended_cursor_rule (cand : ℤ → ℤ → Bool) (ly i sj : ℤ) (is : List ℤ)
    (h : (-1 : ℤ) ∉ intRange sj (ly - 1)) :
    compactRows cand ly (i :: is) sj =
      (((rowScan cand i (intRange sj (ly - 1)) (-1)).1.map fun j => (i, j)) ++
        compactRows cand ly is
          (((intRange sj (ly - 1)).find? fun j => cand i j).getD (-1))) := by
  rw [compactRows]
  rw [rowScan_nsj_find cand i (intRange sj (ly - 1)) h]

theorem C9_witness :
    (-1 : ℤ) ∉ intRange 0 (2 - 1) ∧
      compactRows (fun _ _ => false) 2 ([0] : List ℤ) 0 =
        ((((rowScan (fun _ _ => false) 0 (intRange 0 (2 - 1)) (-1)).1.map
            fun j => ((0 : ℤ), j)) ++
          compactRows (fun _ _ => false) 2 []
            (((intRange 0 (2 - 1)).find? fun j => (fun (_ _ : ℤ) => false) 0 j).getD (-1)))) :=
  ⟨by decide, C9_amended_cursor_rule (fun _ _ => false) 2 0 0 [] (by decide)⟩

theorem intRange_pairwise (lo hi : ℤ) : (intRange lo hi).Pairwise (· < ·) := by
  unfold intRange
  rw [List.pairwise_map]
  refine List.Pairwise.imp ?_ (List.pairwise_lt_range _)
  intro a b hab
  omega

theorem rowScan_sublist (cand : ℤ → ℤ → Bool) (i : ℤ) :
    ∀ (js : List ℤ) (nsj : ℤ), (rowScan cand i js nsj).1.Sublist js := by
  intro js
  induction js with
  | nil => intro nsj; exact List.Sublist.refl []
  | cons j js ih =>
    intro nsj
    unfold rowScan
    by_cases hc : cand i j
    · rw [if_pos hc]
      exact List.Sublist.cons₂ j (ih _)
    · rw [if_neg hc]
      by_cases hn : nsj ≠ -1
      · rw [if_pos hn]
        exact List.nil_sublist _
      · rw [if_neg hn]
        exact (ih nsj).cons j

theorem compactRows_mem_row (cand : ℤ → ℤ → Bool) (ly : ℤ) :
    ∀ (rows : List ℤ) (sj : ℤ) (q : ℤ × ℤ), q ∈ compactRows cand ly rows sj → q.1 ∈ rows := by
  intro rows
  induction rows with
  | nil => intro sj q hq; simp [compactRows] at hq
  | cons i is ih =>
    intro sj q hq
    rw [compactRows] at hq
    rcases List.mem_append.mp hq with h | h
    · obtain ⟨j, _, rfl⟩ := List.mem_map.mp h
      exact List.mem_cons_self i is
    · exact List.mem_cons_of_mem i (ih _ q h)

theorem compactRows_pairwise (cand : ℤ → ℤ → Bool) (ly : ℤ) :
    ∀ (rows : List ℤ) (sj : ℤ), rows.Pairwise (· < ·) →
      (compactRows cand ly rows sj).Pairwise lexLT := by
  intro rows
  induction rows with
  | nil => intro sj _; simp [compactRows]
  | cons i is ih =>
    intro sj hp
    rw [List.pairwise_cons] at hp
    rw [compactRows]
    refine List.pairwise_append.mpr ⟨?_, ih _ hp.2, ?_⟩
    · have hcols : (rowScan cand i (intRange sj (ly - 1)) (-1)).1.Pairwise (· < ·) :=
        (intRange_pairwise sj (ly - 1)).sublist (rowScan_sublist cand i _ _)
      refine List.Pairwise.map _ ?_ hcols
      intro a b hab
      exact Or.inr ⟨rfl, hab⟩
    · intro a ha b hb
      obtain ⟨j, _, rfl⟩ := List.mem_map.mp ha
      have hb1 : b.1 ∈ is := compactRows_mem_row cand ly is _ b hb
      exact Or.inl (hp.1 b.1 hb1)

theorem pairwise_lexLT_earlier (l l1 l2 : List (ℤ × ℤ)) (p q : ℤ × ℤ)
    (hp : l.Pairwise lexLT) (hsplit : l = l1 ++ p :: l2) (hqp : lexLT q p) (hq : q ∈ l) :
    q ∈ l1 := by
  subst hsplit
  rcases List.mem_append.mp hq with h | h
  · exact h
  · rcases List.mem_cons.mp h with h | h
    · subst h
      rcases hqp with h | ⟨_, h⟩ <;> omega
    · have hrel : lexLT p q := by
        have := (List.pairwise_append.mp hp).2.1
        exact (List.pairwise_cons.mp this).1 q h
      rcases hqp with h1 | ⟨h1a, h1b⟩ <;> rcases hrel with h2 | ⟨h2a, h2b⟩ <;> omega

/-- C10: for every coarse path, sequence lengths and radius `r ≥ 0`, the
window returned by `__expand_window` is strictly increasing in row-major
(lexicographic) order — hence has no duplicates — and every predecessor cell
`(i-1,j)`, `(i,j-1)`, `(i-1,j-1)` of a window cell `(i,j)` that occurs in the
window occurs strictly before `(i,j)`, so the solver's
predecessors-processed-first requirement is met by every window `fastdtw`
passes to `dtw`. -/
theorem C10_window_row_major (path : List (ℤ × ℤ)) (lx ly : ℕ) (r : ℤ) (hr : 0 ≤ r) :
    (expand_window path lx ly r).Pairwise lexLT ∧
      (expand_window path lx ly r).Nodup ∧
      ∀ p q l1 l2, expand_window path lx ly r = l1 ++ p :: l2 →
        (q = (p.1 - 1, p.2) ∨ q = (p.1, p.2 - 1) ∨ q = (p.1 - 1, p.2 - 1)) →
        q ∈ expand_window path lx ly r → q ∈ l1 := by
  have hpair : (expand_window path lx ly r).Pairwise lexLT := by
    unfold expand_window
    exact compactRows_pairwise _ _ _ _ (intRange_pairwise _ _)
  refine ⟨hpair, ?_, ?_⟩
  · refine List.Pairwise.imp ?_ hpair
    intro a b hab
    rcases hab with h | ⟨h1, h2⟩
    · intro hcon; rw [hcon] at h; omega
    · intro hcon; rw [hcon] at h2; omega
  · intro p q l1 l2 hsplit hpred hq
    have hqp : lexLT q p := by
      rcases hpred with h | h | h <;> subst h
      · exact Or.inl (by omega)
      · exact Or.inr ⟨rfl, by omega⟩
      · exact Or.inl (by omega)
    exact pairwise_lexLT_earlier _ l1 l2 p q hpair hsplit hqp hq

theorem C10_witness :
    (0 : ℤ) ≤ 0 ∧ (expand_window [(0, 0)] 2 2 0).Pairwise lexLT :=
  ⟨le_refl 0, (C10_window_row_major [(0, 0)] 2 2 0 (le_refl 0)).1⟩

theorem tableGet_init (k : ℤ × ℤ) (hk : k ≠ (0, 0)) : tableGet initTable k = none := by
  show tableGet ((((0 : ℤ), (0 : ℤ)), (⟨0, 0, 0⟩ : CostEntry)) :: []) k = none
  rw [tableGet_cons, if_neg hk]
  rfl

theorem pyGet_init (k : ℤ × ℤ) (hk : k ≠ (0, 0)) : pyGet pyInit k = (⊤, none) := by
  show pyGet ((((0 : ℤ), (0 : ℤ)), ((0 : Cost), some ((0 : ℤ), (0 : ℤ)))) :: []) k = (⊤, none)
  rw [pyGet_cons, if_neg hk]
  rfl

theorem backtrack_init (f : ℕ) (i j : ℤ) (hne : ¬(i = 0 ∧ j = 0)) :
    backtrack initTable (f + 2) i j = [(i - 1, j - 1)] := by
  rw [backtrack, if_neg hne]
  have h1 : lookupEntry initTable i j = ⟨0, 0, 0⟩ := by
    unfold lookupEntry
    rw [tableGet_init (i, j) (by simpa using hne)]
    rfl
  rw [h1]
  show _ :: backtrack initTable (f + 1) 0 0 = _
  rw [backtrack, if_pos ⟨rfl, rfl⟩]

/-- C8: the claim that the solver surfaces an explicit `IncompleteWindow`
error when the window never populates the terminal cell is contradicted by
both cited implementations.  With `x` non-empty and `y = []` the full
cross-product window is empty, the terminal cell is never written, and the
`_fastdtw.pyx` solver silently returns the defaulted result
`(0.0, [(len(x)-1, -1)])` (value-initialized map entry), while the
`fastdtw.pyx` solver fails with an undefined lookup (`IndexError` on the
default `(inf,)` tuple, modelled as `none`) — neither reports an
`IncompleteWindow` error. -/
theorem C8_no_incomplete_window_error (a : ℚ) (t : List ℚ) (dist : ℚ → ℚ → ℚ) :
    dtw (a :: t) [] none dist = ((0 : Cost), [(((a :: t).length : ℤ) - 1, -1)]) ∧
      dtwPy (a :: t) [] none dist = none := by
  have hfw : fullWindow (a :: t).length 0 = [] := by
    simp [fullWindow]
  have hkey : (((a :: t).length : ℤ), (0 : ℤ)) ≠ ((0 : ℤ), (0 : ℤ)) := by
    simp only [ne_eq, Prod.mk.injEq, List.length_cons]
    intro h
    have := h.1
    omega
  have hne : ¬(((a :: t).length : ℤ) = 0 ∧ (0 : ℤ) = 0) := by
    simp only [List.length_cons, not_and]
    intro h
    omega
  have hD : dtwTable (a :: t) [] [] dist = initTable := rfl
  have hDp : dtwTablePy (a :: t) [] [] dist = pyInit := rfl
  have hcost : (lookupEntry initTable ((a :: t).length : ℤ) (0 : ℤ) : CostEntry) = ⟨0, 0, 0⟩ := by
    unfold lookupEntry
    rw [tableGet_init _ hkey]
    rfl
  have hbt : backtrack initTable ((a :: t).length + 2) ((a :: t).length : ℤ) (0 : ℤ) =
      [(((a :: t).length : ℤ) - 1, -1)] :=
    backtrack_init _ _ _ hne
  have hbtp : pyBacktrack pyInit ((a :: t).length + 2) ((a :: t).length : ℤ) (0 : ℤ) = none := by
    rw [show (a :: t).length + 2 = ((a :: t).length + 1) + 1 by omega]
    rw [pyBacktrack, if_neg hne]
    rw [pyGet_init _ hkey]
  constructor
  · simp only [dtw, Option.getD_none, List.length_nil, Nat.add_zero, List.length_cons,
      Nat.cast_zero]
    simp only [List.length_cons] at hfw hD hcost hbt
    rw [hfw, hD]
    simp only [List.length_nil, Nat.add_zero]
    rw [hcost, hbt]
    simp
  · simp only [dtwPy, Option.getD_none, List.length_nil, Nat.add_zero, List.length_cons,
      Nat.cast_zero]
    simp only [List.length_cons] at hfw hDp hbtp
    rw [hfw, hDp]
    simp only [List.length_nil, Nat.add_zero]
    rw [hbtp]

/-- One of the three permitted path steps of the data model. -/
def stepOk (a b : ℤ × ℤ) : Prop :=
  (b.1 - a.1, b.2 - a.2) ∈ [((1 : ℤ), (0 : ℤ)), (0, 1), (1, 1)]

theorem dtwStep_prev (u l c : Cost) (dt : ℚ) (i j : ℤ) :
    ((dtwStep u l c dt i j).prev_x_idx, (dtwStep u l c dt i j).prev_y_idx) = (i - 1, j) ∨
      ((dtwStep u l c dt i j).prev_x_idx, (dtwStep u l c dt i j).prev_y_idx) = (i, j - 1) ∨
      ((dtwStep u l c dt i j).prev_x_idx, (dtwStep u l c dt i j).prev_y_idx) =
        (i - 1, j - 1) := by
  unfold dtwStep
  split_ifs <;> simp

theorem dtwFold_prev_pattern (x y : List ℚ) (dist : ℚ → ℚ → ℚ) :
    ∀ (w : List (ℤ × ℤ)) (D : CostTable),
      (∀ k e, tableGet D k = some e → k ≠ (0, 0) →
        (e.prev_x_idx, e.prev_y_idx) = (k.1 - 1, k.2) ∨
        (e.prev_x_idx, e.prev_y_idx) = (k.1, k.2 - 1) ∨
        (e.prev_x_idx, e.prev_y_idx) = (k.1 - 1, k.2 - 1)) →
      ∀ k e, tableGet (w.foldl (dtwProcessCell x y dist) D) k = some e → k ≠ (0, 0) →
        (e.prev_x_idx, e.prev_y_idx) = (k.1 - 1, k.2) ∨
        (e.prev_x_idx, e.prev_y_idx) = (k.1, k.2 - 1) ∨
        (e.prev_x_idx, e.prev_y_idx) = (k.1 - 1, k.2 - 1) := by
  intro w
  induction w with
  | nil => intro D hD; exact hD
  | cons p w ih =>
    intro D hD
    simp only [List.foldl_cons]
    refine ih _ ?_
    intro k e hget hne
    unfold dtwProcessCell tableSet at hget
    rw [tableGet_cons] at hget
    by_cases hk : k = (p.1 + 1, p.2 + 1)
    · rw [if_pos hk] at hget
      have he : e = dtwStep (get_cost D (p.1 + 1 - 1) (p.2 + 1))
          (get_cost D (p.1 + 1) (p.2 + 1 - 1)) (get_cost D (p.1 + 1 - 1) (p.2 + 1 - 1))
          (dist (elem x (p.1 + 1 - 1)) (elem y (p.2 + 1 - 1))) (p.1 + 1) (p.2 + 1) :=
        (Option.some.injEq _ _ ▸ hget).symm
      subst he
      subst hk
      exact dtwStep_prev _ _ _ _ _ _
    · rw [if_neg hk] at hget
      exact hD k e hget hne

theorem dtwFold_keys (x y : List ℚ) (dist : ℚ → ℚ → ℚ) :
    ∀ (w : List (ℤ × ℤ)) (D : CostTable),
      (∀ p ∈ w, 0 ≤ p.1 ∧ 0 ≤ p.2) →
      (∀ k e, tableGet D k = some e → k = (0, 0) ∨ (1 ≤ k.1 ∧ 1 ≤ k.2)) →
      ∀ k e, tableGet (w.foldl (dtwProcessCell x y dist) D) k = some e →
        k = (0, 0) ∨ (1 ≤ k.1 ∧ 1 ≤ k.2) := by
  intro w
  induction w with
  | nil => intro D _ hD; exact hD
  | cons p w ih =>
    intro D hw hD
    simp only [List.foldl_cons]
    refine ih _ (fun q hq => hw q (List.mem_cons_of_mem p hq)) ?_
    intro k e hget
    unfold dtwProcessCell tableSet at hget
    rw [tableGet_cons] at hget
    by_cases hk : k = (p.1 + 1, p.2 + 1)
    · right
      have hp := hw p (List.mem_cons_self p w)
      rw [hk]
      constructor <;> [skip; skip] <;> simp <;> omega
    · rw [if_neg hk] at hget
      exact hD k e hget

theorem chainOk_destruct (D : CostTable) (f : ℕ) (i j : ℤ)
    (hok : chainOk D f i j = true) (hne : ¬(i = 0 ∧ j = 0)) :
    ∃ f' e, f = f' + 1 ∧ tableGet D (i, j) = some e ∧
      chainOk D f' e.prev_x_idx e.prev_y_idx = true := by
  cases f with
  | zero =>
    rw [chainOk] at hok
    exact absurd (of_decide_eq_true hok) hne
  | succ f =>
    rw [chainOk, if_neg hne] at hok
    rcases hfind : tableGet D (i, j) with _ | e
    · rw [hfind] at hok
      exact absurd hok (by simp)
    · rw [hfind] at hok
      exact ⟨f, e, rfl, rfl, hok⟩

theorem backtrack_at_origin (D : CostTable) : ∀ f : ℕ, backtrack D f 0 0 = [] := by
  intro f
  cases f with
  | zero => rfl
  | succ f => rw [backtrack, if_pos ⟨rfl, rfl⟩]

theorem backtrack_shape (D : CostTable)
    (hpat : ∀ k e, tableGet D k = some e → k ≠ (0, 0) →
      (e.prev_x_idx, e.prev_y_idx) = (k.1 - 1, k.2) ∨
      (e.prev_x_idx, e.prev_y_idx) = (k.1, k.2 - 1) ∨
      (e.prev_x_idx, e.prev_y_idx) = (k.1 - 1, k.2 - 1))
    (hpos : ∀ k e, tableGet D k = some e → k = (0, 0) ∨ (1 ≤ k.1 ∧ 1 ≤ k.2)) :
    ∀ (f : ℕ) (i j : ℤ), 1 ≤ i → 1 ≤ j → chainOk D f i j = true →
      (backtrack D f i j).reverse.head? = some ((0 : ℤ), (0 : ℤ)) ∧
      (backtrack D f i j).reverse.getLast? = some (i - 1, j - 1) ∧
      List.Chain' stepOk (backtrack D f i j).reverse := by
  intro f
  induction f with
  | zero =>
    intro i j hi hj hok
    rw [chainOk] at hok
    have := of_decide_eq_true hok
    omega
  | succ f ih =>
    intro i j hi hj hok
    have hne : ¬(i = 0 ∧ j = 0) := by omega
    have hne2 : ((i, j) : ℤ × ℤ) ≠ (0, 0) := by
      simp only [ne_eq, Prod.mk.injEq, not_and]
      omega
    obtain ⟨f', e, hf, hfind, hok'⟩ := chainOk_destruct D (f + 1) i j hok hne
    have hf' : f' = f := by omega
    rw [hf'] at hok'
    have hlook : lookupEntry D i j = e := by
      unfold lookupEntry
      rw [hfind]
      rfl
    have hbt : backtrack D (f + 1) i j =
        (i - 1, j - 1) :: backtrack D f e.prev_x_idx e.prev_y_idx := by
      rw [backtrack, if_neg hne, hlook]
    have hpattern := hpat (i, j) e hfind hne2
    by_cases hp0 : ((e.prev_x_idx, e.prev_y_idx) : ℤ × ℤ) = (0, 0)
    · have hij : i = 1 ∧ j = 1 := by
        rcases hpattern with h | h | h <;>
          (rw [hp0] at h
           simp only [Prod.mk.injEq] at h
           omega)
      have hpx : e.prev_x_idx = 0 := by
        have := congrArg Prod.fst hp0
        simpa using this
      have hpy : e.prev_y_idx = 0 := by
        have := congrArg Prod.snd hp0
        simpa using this
      rw [hbt, hpx, hpy, backtrack_at_origin]
      refine ⟨?_, ?_, ?_⟩
      · simp [hij.1, hij.2]
      · simp
      · simp
    · obtain ⟨f'', e', _, hfind', _⟩ :=
        chainOk_destruct D f e.prev_x_idx e.prev_y_idx hok'
          (by intro h; exact hp0 (by simp [h.1, h.2]))
      have hpos' := hpos _ e' hfind'
      have hp1 : 1 ≤ e.prev_x_idx ∧ 1 ≤ e.prev_y_idx := by
        rcases hpos' with h | h
        · exact absurd h hp0
        · exact h
      obtain ⟨hh, hl, hc⟩ := ih e.prev_x_idx e.prev_y_idx hp1.1 hp1.2 hok'
      rw [hbt, List.reverse_cons]
      rcases htail : (backtrack D f e.prev_x_idx e.prev_y_idx).reverse with _ | ⟨t0, ts⟩
      · rw [htail] at hh
        exact absurd hh (by simp)
      · rw [htail] at hh hl hc
        refine ⟨?_, ?_, ?_⟩
        · simpa using hh
        · rw [List.getLast?_concat]
        · refine List.chain'_append.mpr ⟨hc, List.chain'_singleton _, ?_⟩
          intro z hz ww hw
          simp only [List.head?_cons, Option.mem_def, Option.some.injEq] at hw
          rw [hl] at hz
          simp only [Option.mem_def, Option.some.injEq] at hz
          subst hz
          subst hw
          unfold stepOk
          rcases hpattern with h | h | h <;>
            (simp only [Prod.mk.injEq] at h
             simp only [List.mem_cons, List.mem_singleton, Prod.mk.injEq,
               List.not_mem_nil, or_false]
             omega)

/-- C2: for non-empty `x` and `y` and every window of index pairs for which
the solver succeeds (formalized by `chainOk`: the backtracking loop reaches
the origin through cells that are all present in the cost table), the path
returned by `dtw` begins at `(0,0)`, ends at `(len(x)-1, len(y)-1)`, moves by
one of the steps `(+1,0)`, `(0,+1)`, `(+1,+1)` between consecutive cells, and
is non-decreasing in both coordinates.  `fastdtw` returns `dtw` results, so
the same shape holds for its paths. -/
theorem C2_path_shape (x y : List ℚ) (w : List (ℤ × ℤ)) (dist : ℚ → ℚ → ℚ)
    (hx : x ≠ []) (hy : y ≠ [])
    (hw : ∀ p ∈ w, 0 ≤ p.1 ∧ 0 ≤ p.2)
    (hok : chainOk (dtwTable x y w dist) (x.length + y.length + w.length + 2)
      (x.length : ℤ) (y.length : ℤ) = true) :
    (dtw x y (some w) dist).2.head? = some ((0 : ℤ), (0 : ℤ)) ∧
      (dtw x y (some w) dist).2.getLast? = some ((x.length : ℤ) - 1, (y.length : ℤ) - 1) ∧
      List.Chain' stepOk (dtw x y (some w) dist).2 ∧
      List.Chain' (fun a b => a.1 ≤ b.1 ∧ a.2 ≤ b.2) (dtw x y (some w) dist).2 := by
  have hpat := dtwFold_prev_pattern x y dist w initTable (by
    intro k e hget hne
    rw [show initTable = (((0 : ℤ), (0 : ℤ)), (⟨0, 0, 0⟩ : CostEntry)) :: [] from rfl,
      tableGet_cons, if_neg hne] at hget
    exact absurd hget (by simp [tableGet]))
  have hpos := dtwFold_keys x y dist w initTable hw (by
    intro k e hget
    by_cases hk : k = ((0 : ℤ), (0 : ℤ))
    · exact Or.inl hk
    · rw [show initTable = (((0 : ℤ), (0 : ℤ)), (⟨0, 0, 0⟩ : CostEntry)) :: [] from rfl,
        tableGet_cons, if_neg hk] at hget
      exact absurd hget (by simp [tableGet]))
  have hx1 : 1 ≤ (x.length : ℤ) := by
    rcases x with _ | _
    · exact absurd rfl hx
    · simp only [List.length_cons]
      omega
  have hy1 : 1 ≤ (y.length : ℤ) := by
    rcases y with _ | _
    · exact absurd rfl hy
    · simp only [List.length_cons]
      omega
  have hshape := backtrack_shape (dtwTable x y w dist) hpat hpos
    (x.length + y.length + w.length + 2) (x.length : ℤ) (y.length : ℤ) hx1 hy1 hok
  have hpath : (dtw x y (some w) dist).2 =
      (backtrack (dtwTable x y w dist) (x.length + y.length + w.length + 2)
        (x.length : ℤ) (y.length : ℤ)).reverse := rfl
  rw [hpath]
  refine ⟨hshape.1, hshape.2.1, hshape.2.2, ?_⟩
  refine List.Chain'.imp ?_ hshape.2.2
  intro a b hab
  unfold stepOk at hab
  simp only [List.mem_cons, List.mem_singleton, Prod.mk.injEq, List.not_mem_nil,
    or_false] at hab
  constructor <;> omega

theorem C2_witness :
    (∀ p ∈ ([(0, 0)] : List (ℤ × ℤ)), 0 ≤ p.1 ∧ 0 ≤ p.2) ∧
      chainOk (dtwTable [0] [0] [(0, 0)] defaultDist)
        (([0] : List ℚ).length + ([0] : List ℚ).length + ([((0 : ℤ), (0 : ℤ))] : List (ℤ × ℤ)).length + 2)
        (([0] : List ℚ).length : ℤ) (([0] : List ℚ).length : ℤ) = true ∧
      (dtw [0] [0] (some [(0, 0)]) defaultDist).2.head? = some ((0 : ℤ), (0 : ℤ)) :=
  ⟨by decide, by with_unfolding_all rfl,
    (C2_path_shape [0] [0] [(0, 0)] defaultDist (by simp) (by simp) (by decide)
      (by with_unfolding_all rfl)).1⟩

theorem dtwDP_zero_zero (x y : List ℚ) (dist : ℚ → ℚ → ℚ) : dtwDP x y dist 0 0 = 0 := by
  rw [dtwDP]

theorem dtwDP_succ_zero (x y : List ℚ) (dist : ℚ → ℚ → ℚ) (i : ℕ) :
    dtwDP x y dist (i + 1) 0 = ⊤ := by
  rw [dtwDP]

theorem dtwDP_zero_succ (x y : List ℚ) (dist : ℚ → ℚ → ℚ) (j : ℕ) :
    dtwDP x y dist 0 (j + 1) = ⊤ := by
  rw [dtwDP]

theorem dtwDP_succ_succ (x y : List ℚ) (dist : ℚ → ℚ → ℚ) (i j : ℕ) :
    dtwDP x y dist (i + 1) (j + 1) =
      ((dist (x.getD i 0) (y.getD j 0) : ℚ) : Cost) +
        min (dtwDP x y dist i (j + 1)) (min (dtwDP x y dist (i + 1) j) (dtwDP x y dist i j)) := by
  rw [dtwDP]

theorem dtwDP_nonneg (x y : List ℚ) (dist : ℚ → ℚ → ℚ) (hd : ∀ a b, 0 ≤ dist a b) :
    ∀ i j : ℕ, (0 : Cost) ≤ dtwDP x y dist i j
  | 0, 0 => by rw [dtwDP_zero_zero]
  | i + 1, 0 => by rw [dtwDP_succ_zero]; exact le_top
  | 0, j + 1 => by rw [dtwDP_zero_succ]; exact le_top
  | i + 1, j + 1 => by
    rw [dtwDP_succ_succ]
    have h1 := dtwDP_nonneg x y dist hd i (j + 1)
    have h2 := dtwDP_nonneg x y dist hd (i + 1) j
    have h3 := dtwDP_nonneg x y dist hd i j
    refine add_nonneg ?_ (le_min h1 (le_min h2 h3))
    exact_mod_cast hd _ _
  termination_by i j => (i, j)

theorem phi_orig (x y : List ℚ) (dist : ℚ → ℚ → ℚ) : phi x y dist (0, 0) = 0 := by
  unfold phi
  rw [if_pos rfl]

theorem phi_top (x y : List ℚ) (dist : ℚ → ℚ → ℚ) (k : ℤ × ℤ)
    (h : k.1 < 0 ∨ k.2 < 0) (hne : k ≠ (0, 0)) : phi x y dist k = ⊤ := by
  unfold phi
  rw [if_neg hne, if_pos h]

theorem phi_pos (x y : List ℚ) (dist : ℚ → ℚ → ℚ) (k : ℤ × ℤ)
    (hne : k ≠ (0, 0)) (h1 : 0 ≤ k.1) (h2 : 0 ≤ k.2) :
    phi x y dist k = dtwDP x y dist (max k.1 1).toNat (max k.2 1).toNat := by
  unfold phi
  rw [if_neg hne, if_neg (by omega)]

theorem phi_nonneg (x y : List ℚ) (dist : ℚ → ℚ → ℚ) (hd : ∀ a b, 0 ≤ dist a b)
    (k : ℤ × ℤ) : (0 : Cost) ≤ phi x y dist k := by
  unfold phi
  split_ifs
  · exact le_refl 0
  · exact le_top
  · exact dtwDP_nonneg x y dist hd _ _

theorem dtwDP_le_add (x y : List ℚ) (dist : ℚ → ℚ → ℚ) (M0 N0 : ℕ) (C : Cost)
    (hC : min (dtwDP x y dist M0 (N0 + 1))
        (min (dtwDP x y dist (M0 + 1) N0) (dtwDP x y dist M0 N0)) ≤ C) :
    dtwDP x y dist (M0 + 1) (N0 + 1) ≤
      C + ((dist (x.getD M0 0) (y.getD N0 0) : ℚ) : Cost) := by
  rw [dtwDP_succ_succ]
  calc ((dist (x.getD M0 0) (y.getD N0 0) : ℚ) : Cost) +
      min (dtwDP x y dist M0 (N0 + 1))
        (min (dtwDP x y dist (M0 + 1) N0) (dtwDP x y dist M0 N0)) ≤
      ((dist (x.getD M0 0) (y.getD N0 0) : ℚ) : Cost) + C := add_le_add_left hC _
    _ = C + ((dist (x.getD M0 0) (y.getD N0 0) : ℚ) : Cost) := add_comm _ _

theorem phi_pred_le (x y : List ℚ) (dist : ℚ → ℚ → ℚ) (hd : ∀ a b, 0 ≤ dist a b)
    (i j a b : ℤ) (hi : 0 ≤ i) (hj : 0 ≤ j)
    (hab : (a = i - 1 ∧ b = j) ∨ (a = i ∧ b = j - 1) ∨ (a = i - 1 ∧ b = j - 1)) :
    dtwDP x y dist (max i 1).toNat (max j 1).toNat ≤
      phi x y dist (a, b) +
        ((dist (x.getD (i - 1).toNat 0) (y.getD (j - 1).toNat 0) : ℚ) : Cost) := by
  obtain ⟨M0, hM0, hM0d⟩ : ∃ m, (max i 1).toNat = m + 1 ∧ (i - 1).toNat = m :=
    ⟨(i - 1).toNat, by omega, rfl⟩
  obtain ⟨N0, hN0, hN0d⟩ : ∃ m, (max j 1).toNat = m + 1 ∧ (j - 1).toNat = m :=
    ⟨(j - 1).toNat, by omega, rfl⟩
  rw [hM0, hN0, hM0d, hN0d]
  have hdt : (0 : Cost) ≤ ((dist (x.getD M0 0) (y.getD N0 0) : ℚ) : Cost) := by
    exact_mod_cast hd _ _
  have horig : min (dtwDP x y dist 0 (0 + 1))
      (min (dtwDP x y dist (0 + 1) 0) (dtwDP x y dist 0 0)) ≤ (0 : Cost) :=
    (min_le_right _ _).trans ((min_le_right _ _).trans (le_of_eq (dtwDP_zero_zero x y dist)))
  rcases hab with ⟨ha, hb⟩ | ⟨ha, hb⟩ | ⟨ha, hb⟩ <;> rw [ha, hb]
  · -- up predecessor (i - 1, j)
    by_cases hi0 : i = 0
    · subst hi0
      rw [phi_top x y dist (0 - 1, j) (Or.inl (by show (0 : ℤ) - 1 < 0; norm_num))
        (by intro hcon; rw [Prod.mk.injEq] at hcon; omega), WithTop.top_add]
      exact le_top
    · have hi1 : 1 ≤ i := by omega
      by_cases hij0 : i = 1 ∧ j = 0
      · obtain ⟨rfl, rfl⟩ := hij0
        have hM00 : M0 = 0 := by omega
        have hN00 : N0 = 0 := by omega
        subst hM00
        subst hN00
        rw [show (((1 : ℤ) - 1, (0 : ℤ)) : ℤ × ℤ) = ((0 : ℤ), (0 : ℤ)) by norm_num,
          phi_orig]
        exact dtwDP_le_add x y dist 0 0 0 horig
      · have hne : ((i - 1, j) : ℤ × ℤ) ≠ (0, 0) := by
          intro hcon
          rw [Prod.mk.injEq] at hcon
          exact hij0 ⟨by omega, hcon.2⟩
        rw [phi_pos x y dist (i - 1, j) hne (by omega) hj]
        show dtwDP x y dist (M0 + 1) (N0 + 1) ≤
          dtwDP x y dist (max (i - 1) 1).toNat (max j 1).toNat + _
        rw [hN0]
        by_cases hi2 : 2 ≤ i
        · rw [max_eq_left (by omega : (1 : ℤ) ≤ i - 1), hM0d]
          exact dtwDP_le_add x y dist M0 N0 _ (min_le_left _ _)
        · have hi1e : i = 1 := by omega
          subst hi1e
          have hM00 : M0 = 0 := by omega
          subst hM00
          rw [show ((1 : ℤ) - 1) = (0 : ℤ) by norm_num,
            max_eq_right (by omega : (0 : ℤ) ≤ 1),
            show ((1 : ℤ)).toNat = 0 + 1 from rfl]
          exact le_add_of_nonneg_right hdt
  · -- left predecessor (i, j - 1)
    by_cases hj0 : j = 0
    · subst hj0
      rw [phi_top x y dist (i, 0 - 1) (Or.inr (by show (0 : ℤ) - 1 < 0; norm_num))
        (by intro hcon; rw [Prod.mk.injEq] at hcon; omega), WithTop.top_add]
      exact le_top
    · have hj1 : 1 ≤ j := by omega
      by_cases hij0 : i = 0 ∧ j = 1
      · obtain ⟨rfl, rfl⟩ := hij0
        have hM00 : M0 = 0 := by omega
        have hN00 : N0 = 0 := by omega
        subst hM00
        subst hN00
        rw [show (((0 : ℤ), (1 : ℤ) - 1) : ℤ × ℤ) = ((0 : ℤ), (0 : ℤ)) by norm_num,
          phi_orig]
        exact dtwDP_le_add x y dist 0 0 0 horig
      · have hne : ((i, j - 1) : ℤ × ℤ) ≠ (0, 0) := by
          intro hcon
          rw [Prod.mk.injEq] at hcon
          exact hij0 ⟨hcon.1, by omega⟩
        rw [phi_pos x y dist (i, j - 1) hne hi (by omega)]
        show dtwDP x y dist (M0 + 1) (N0 + 1) ≤
          dtwDP x y dist (max i 1).toNat (max (j - 1) 1).toNat + _
        rw [hM0]
        by_cases hj2 : 2 ≤ j
        · rw [max_eq_left (by omega : (1 : ℤ) ≤ j - 1), hN0d]
          exact dtwDP_le_add x y dist M0 N0 _
            ((min_le_right _ _).trans (min_le_left _ _))
        · have hj1e : j = 1 := by omega
          subst hj1e
          have hN00 : N0 = 0 := by omega
          subst hN00
          rw [show ((1 : ℤ) - 1) = (0 : ℤ) by norm_num,
            max_eq_right (by omega : (0 : ℤ) ≤ 1),
            show ((1 : ℤ)).toNat = 0 + 1 from rfl]
          exact le_add_of_nonneg_right hdt
  · -- corner predecessor (i - 1, j - 1)
    by_cases hc0 : i = 1 ∧ j = 1
    · obtain ⟨rfl, rfl⟩ := hc0
      have hM00 : M0 = 0 := by omega
      have hN00 : N0 = 0 := by omega
      subst hM00
      subst hN00
      rw [show (((1 : ℤ) - 1, (1 : ℤ) - 1) : ℤ × ℤ) = ((0 : ℤ), (0 : ℤ)) by norm_num,
        phi_orig]
      exact dtwDP_le_add x y dist 0 0 0 horig
    · by_cases hneg : i = 0 ∨ j = 0
      · have hne : ((i - 1, j - 1) : ℤ × ℤ) ≠ (0, 0) := by
          intro hcon
          rw [Prod.mk.injEq] at hcon
          rcases hneg with h | h <;> omega
        have htop : phi x y dist (i - 1, j - 1) = ⊤ := by
          refine phi_top x y dist (i - 1, j - 1) ?_ hne
          rcases hneg with h | h
          · exact Or.inl (by show i - 1 < 0; omega)
          · exact Or.inr (by show j - 1 < 0; omega)
        rw [htop, WithTop.top_add]
        exact le_top
      · have hi1 : 1 ≤ i := by omega
        have hj1 : 1 ≤ j := by omega
        have hne : ((i - 1, j - 1) : ℤ × ℤ) ≠ (0, 0) := by
          intro hcon
          rw [Prod.mk.injEq] at hcon
          exact hc0 ⟨by omega, by omega⟩
        rw [phi_pos x y dist (i - 1, j - 1) hne (by omega) (by omega)]
        show dtwDP x y dist (M0 + 1) (N0 + 1) ≤
          dtwDP x y dist (max (i - 1) 1).toNat (max (j - 1) 1).toNat + _
        by_cases hi2 : 2 ≤ i
        · rw [max_eq_left (by omega : (1 : ℤ) ≤ i - 1), hM0d]
          by_cases hj2 : 2 ≤ j
          · rw [max_eq_left (by omega : (1 : ℤ) ≤ j - 1), hN0d]
            exact dtwDP_le_add x y dist M0 N0 _
              ((min_le_right _ _).trans (min_le_right _ _))
          · have hj1e : j = 1 := by omega
            subst hj1e
            have hN00 : N0 = 0 := by omega
            subst hN00
            rw [show ((1 : ℤ) - 1) = (0 : ℤ) by norm_num,
              max_eq_right (by omega : (0 : ℤ) ≤ 1),
              show ((1 : ℤ)).toNat = 0 + 1 from rfl]
            exact dtwDP_le_add x y dist M0 0 _ (min_le_left _ _)
        · have hi1e : i = 1 := by omega
          subst hi1e
          have hM00 : M0 = 0 := by omega
          subst hM00
          have hj2 : 2 ≤ j := by
            have : j ≠ 1 := fun h => hc0 ⟨rfl, h⟩
            omega
          rw [show ((1 : ℤ) - 1) = (0 : ℤ) by norm_num,
            max_eq_right (by omega : (0 : ℤ) ≤ 1),
            show ((1 : ℤ)).toNat = 0 + 1 from rfl,
            max_eq_left (by omega : (1 : ℤ) ≤ j - 1), hN0d]
          exact dtwDP_le_add x y dist 0 N0 _
            ((min_le_right _ _).trans (min_le_left _ _))

theorem dtwFold_phi (x y : List ℚ) (dist : ℚ → ℚ → ℚ) (hd : ∀ a b, 0 ≤ dist a b) :
    ∀ (w : List (ℤ × ℤ)) (D : CostTable),
      (∀ k e, tableGet D k = some e → phi x y dist k ≤ e.cost) →
      ∀ k e, tableGet (w.foldl (dtwProcessCell x y dist) D) k = some e →
        phi x y dist k ≤ e.cost := by
  intro w
  induction w with
  | nil => intro D hD; exact hD
  | cons p w ih =>
    intro D hD
    simp only [List.foldl_cons]
    refine ih _ ?_
    intro k e hget
    unfold dtwProcessCell tableSet at hget
    rw [tableGet_cons] at hget
    by_cases hk : k = (p.1 + 1, p.2 + 1)
    case neg =>
      rw [if_neg hk] at hget
      exact hD k e hget
    case pos =>
      rw [if_pos hk] at hget
      have he : e = dtwStep (get_cost D (p.1 + 1 - 1) (p.2 + 1))
          (get_cost D (p.1 + 1) (p.2 + 1 - 1)) (get_cost D (p.1 + 1 - 1) (p.2 + 1 - 1))
          (dist (elem x (p.1 + 1 - 1)) (elem y (p.2 + 1 - 1))) (p.1 + 1) (p.2 + 1) :=
        (Option.some.injEq _ _ ▸ hget).symm
      subst he
      subst hk
      have e1 : p.1 + 1 - 1 = p.1 := by omega
      have e2 : p.2 + 1 - 1 = p.2 := by omega
      rw [dtwStep_cost, e1, e2]
      have hlook : ∀ a b : ℤ, phi x y dist (a, b) ≤ get_cost D a b := by
        intro a b
        unfold get_cost
        rcases h : tableGet D (a, b) with _ | e'
        · exact le_top
        · exact hD (a, b) e' h
      have hdtpos : (0 : Cost) ≤ ((dist (elem x p.1) (elem y p.2) : ℚ) : Cost) := by
        exact_mod_cast hd _ _
      by_cases hk0 : ((p.1 + 1, p.2 + 1) : ℤ × ℤ) = (0, 0)
      · rw [hk0, phi_orig]
        refine add_nonneg (le_min ?_ (le_min ?_ ?_)) hdtpos <;>
          exact (phi_nonneg x y dist hd _).trans (hlook _ _)
      · by_cases hneg : p.1 + 1 < 0 ∨ p.2 + 1 < 0
        · rw [phi_top x y dist _ hneg hk0, top_le_iff]
          have hU : get_cost D p.1 (p.2 + 1) = ⊤ := by
            rw [← top_le_iff]
            refine le_trans (le_of_eq ?_) (hlook p.1 (p.2 + 1))
            refine (phi_top x y dist _ ?_ ?_).symm
            · rcases hneg with h | h
              · exact Or.inl (by show p.1 < 0; omega)
              · exact Or.inr (by show p.2 + 1 < 0; omega)
            · intro hcon
              rw [Prod.mk.injEq] at hcon
              omega
          have hL : get_cost D (p.1 + 1) p.2 = ⊤ := by
            rw [← top_le_iff]
            refine le_trans (le_of_eq ?_) (hlook (p.1 + 1) p.2)
            refine (phi_top x y dist _ ?_ ?_).symm
            · rcases hneg with h | h
              · exact Or.inl (by show p.1 + 1 < 0; omega)
              · exact Or.inr (by show p.2 < 0; omega)
            · intro hcon
              rw [Prod.mk.injEq] at hcon
              omega
          have hC : get_cost D p.1 p.2 = ⊤ := by
            rw [← top_le_iff]
            refine le_trans (le_of_eq ?_) (hlook p.1 p.2)
            refine (phi_top x y dist _ ?_ ?_).symm
            · rcases hneg with h | h
              · exact Or.inl (by show p.1 < 0; omega)
              · exact Or.inr (by show p.2 < 0; omega)
            · intro hcon
              rw [Prod.mk.injEq] at hcon
              omega
          rw [hU, hL, hC]
          simp [WithTop.top_add]
        · have h0i : (0 : ℤ) ≤ p.1 + 1 := by omega
          have h0j : (0 : ℤ) ≤ p.2 + 1 := by omega
          rw [phi_pos x y dist _ hk0 h0i h0j]
          have hup := phi_pred_le x y dist hd (p.1 + 1) (p.2 + 1) (p.1 + 1 - 1) (p.2 + 1)
            h0i h0j (Or.inl ⟨rfl, rfl⟩)
          have hleft := phi_pred_le x y dist hd (p.1 + 1) (p.2 + 1) (p.1 + 1) (p.2 + 1 - 1)
            h0i h0j (Or.inr (Or.inl ⟨rfl, rfl⟩))
          have hcnr := phi_pred_le x y dist hd (p.1 + 1) (p.2 + 1) (p.1 + 1 - 1) (p.2 + 1 - 1)
            h0i h0j (Or.inr (Or.inr ⟨rfl, rfl⟩))
          rw [e1, e2] at hup hleft hcnr
          have helem : ((dist (elem x p.1) (elem y p.2) : ℚ) : Cost) =
              ((dist (x.getD p.1.toNat 0) (y.getD p.2.toNat 0) : ℚ) : Cost) := rfl
          rw [helem]
          rw [← min_add_add_right, ← min_add_add_right]
          refine le_min ?_ (le_min ?_ ?_)
          · exact hup.trans (add_le_add_right (hlook p.1 (p.2 + 1)) _)
          · exact hleft.trans (add_le_add_right (hlook (p.1 + 1) p.2) _)
          · exact hcnr.trans (add_le_add_right (hlook p.1 p.2) _)

theorem dtwTable_phi (x y : List ℚ) (dist : ℚ → ℚ → ℚ) (hd : ∀ a b, 0 ≤ dist a b)
    (w : List (ℤ × ℤ)) :
    ∀ k e, tableGet (dtwTable x y w dist) k = some e → phi x y dist k ≤ e.cost := by
  refine dtwFold_phi x y dist hd w initTable ?_
  intro k e hget
  by_cases hk : k = ((0 : ℤ), (0 : ℤ))
  · subst hk
    have : e = ⟨0, 0, 0⟩ := by
      rw [show initTable = (((0 : ℤ), (0 : ℤ)), (⟨0, 0, 0⟩ : CostEntry)) :: [] from rfl,
        tableGet_cons, if_pos rfl] at hget
      exact (Option.some.injEq _ _ ▸ hget).symm
    rw [this, phi_orig]
  · rw [tableGet_init k hk] at hget
    exact absurd hget (by simp)

/-- Cost view of a table: the stored cumulative cost per key. -/
def costView (D : CostTable) (k : ℤ × ℤ) : Option Cost :=
  (tableGet D k).map fun e => e.cost

/-- The cost contents of the table after the row-major full-grid solver has
processed rows `0..n-1` completely plus the first `m` cells of row `n`, in
internal 1-based keys: the origin, all cells of fully processed rows, and the
first `m` cells of the row being processed, each holding its textbook DP
value. -/
def gridCost (x y : List ℚ) (dist : ℚ → ℚ → ℚ) (ly n m : ℕ) (a b : ℤ) : Option Cost :=
  if a = 0 ∧ b = 0 then some 0
  else if 1 ≤ a ∧ a ≤ (n : ℤ) ∧ 1 ≤ b ∧ b ≤ (ly : ℤ) then
    some (dtwDP x y dist a.toNat b.toNat)
  else if a = (n : ℤ) + 1 ∧ 1 ≤ b ∧ b ≤ (m : ℤ) then
    some (dtwDP x y dist a.toNat b.toNat)
  else none

theorem get_cost_costView (D : CostTable) (a b : ℤ) :
    get_cost D a b = (costView D (a, b)).getD ⊤ := by
  unfold get_cost costView
  cases tableGet D (a, b) <;> rfl

theorem elem_natCast (x : List ℚ) (n : ℕ) : elem x (n : ℤ) = x.getD n 0 := by
  unfold elem
  rw [Int.toNat_natCast]

theorem costView_process (x y : List ℚ) (dist : ℚ → ℚ → ℚ) (D : CostTable) (p k : ℤ × ℤ) :
    costView (dtwProcessCell x y dist D p) k =
      if k = (p.1 + 1, p.2 + 1) then
        some (min (get_cost D p.1 (p.2 + 1))
            (min (get_cost D (p.1 + 1) p.2) (get_cost D p.1 p.2)) +
          ((dist (elem x p.1) (elem y p.2) : ℚ) : Cost))
      else costView D k := by
  have e1 : p.1 + 1 - 1 = p.1 := by omega
  have e2 : p.2 + 1 - 1 = p.2 := by omega
  unfold costView dtwProcessCell tableSet
  rw [tableGet_cons]
  by_cases hk : k = (p.1 + 1, p.2 + 1)
  · rw [if_pos hk, if_pos hk]
    show some (dtwStep _ _ _ _ _ _).cost = _
    rw [dtwStep_cost, e1, e2]
  · rw [if_neg hk, if_neg hk]

theorem gridCost_up (x y : List ℚ) (dist : ℚ → ℚ → ℚ) (ly n m : ℕ) (hm : m < ly) :
    (gridCost x y dist ly n m (n : ℤ) ((m : ℤ) + 1)).getD ⊤ = dtwDP x y dist n (m + 1) := by
  have ht1 : ((n : ℤ)).toNat = n := by omega
  have ht2 : ((m : ℤ) + 1).toNat = m + 1 := by omega
  unfold gridCost
  split_ifs with h1 h2 h3
  · omega
  · show dtwDP x y dist ((n : ℤ)).toNat ((m : ℤ) + 1).toNat = _
    rw [ht1, ht2]
  · omega
  · have hn : n = 0 := by omega
    subst hn
    show (⊤ : Cost) = _
    rw [dtwDP_zero_succ]

theorem gridCost_left (x y : List ℚ) (dist : ℚ → ℚ → ℚ) (ly n m : ℕ) :
    (gridCost x y dist ly n m ((n : ℤ) + 1) (m : ℤ)).getD ⊤ = dtwDP x y dist (n + 1) m := by
  have ht1 : ((n : ℤ) + 1).toNat = n + 1 := by omega
  have ht2 : ((m : ℤ)).toNat = m := by omega
  unfold gridCost
  split_ifs with h1 h2 h3
  · omega
  · omega
  · show dtwDP x y dist ((n : ℤ) + 1).toNat ((m : ℤ)).toNat = _
    rw [ht1, ht2]
  · have hn : m = 0 := by omega
    subst hn
    show (⊤ : Cost) = _
    rw [dtwDP_succ_zero]

theorem gridCost_cnr (x y : List ℚ) (dist : ℚ → ℚ → ℚ) (ly n m : ℕ) (hm : m < ly) :
    (gridCost x y dist ly n m (n : ℤ) (m : ℤ)).getD ⊤ = dtwDP x y dist n m := by
  have ht1 : ((n : ℤ)).toNat = n := by omega
  have ht2 : ((m : ℤ)).toNat = m := by omega
  unfold gridCost
  split_ifs with h1 h2 h3
  · have hn : n = 0 := by omega
    have hm0 : m = 0 := by omega
    subst hn
    subst hm0
    rw [dtwDP_zero_zero]
    rfl
  · show dtwDP x y dist ((n : ℤ)).toNat ((m : ℤ)).toNat = _
    rw [ht1, ht2]
  · omega
  · show (⊤ : Cost) = _
    rcases (by omega : n = 0 ∨ m = 0) with hn | hm0
    · subst hn
      obtain ⟨m', rfl⟩ : ∃ m', m = m' + 1 := ⟨m - 1, by omega⟩
      rw [dtwDP_zero_succ]
    · subst hm0
      obtain ⟨n', rfl⟩ : ∃ n', n = n' + 1 := ⟨n - 1, by omega⟩
      rw [dtwDP_succ_zero]

theorem gridCost_target (x y : List ℚ) (dist : ℚ → ℚ → ℚ) (ly n m : ℕ) (hm : m < ly) :
    gridCost x y dist ly n (m + 1) ((n : ℤ) + 1) ((m : ℤ) + 1) =
      some (dtwDP x y dist (n + 1) (m + 1)) := by
  have ht1 : ((n : ℤ) + 1).toNat = n + 1 := by omega
  have ht2 : ((m : ℤ) + 1).toNat = m + 1 := by omega
  unfold gridCost
  split_ifs with h1 h2 h3
  · omega
  · omega
  · rw [ht1, ht2]
  · omega

theorem gridCost_mono_m (x y : List ℚ) (dist : ℚ → ℚ → ℚ) (ly n m : ℕ) (a b : ℤ)
    (hne : ¬(a = (n : ℤ) + 1 ∧ b = (m : ℤ) + 1)) :
    gridCost x y dist ly n m a b = gridCost x y dist ly n (m + 1) a b := by
  unfold gridCost
  split_ifs <;> first | rfl | omega

theorem gridCost_turnover (x y : List ℚ) (dist : ℚ → ℚ → ℚ) (ly n : ℕ) (a b : ℤ) :
    gridCost x y dist ly n ly a b = gridCost x y dist ly (n + 1) 0 a b := by
  unfold gridCost
  split_ifs <;> first | rfl | omega

theorem rowFold (x y : List ℚ) (dist : ℚ → ℚ → ℚ) (ly n : ℕ) :
    ∀ (m : ℕ), m ≤ ly → ∀ D : CostTable,
      (∀ a b : ℤ, costView D (a, b) = gridCost x y dist ly n 0 a b) →
      ∀ a b : ℤ,
        costView (((List.range m).map fun (c : ℕ) => ((n : ℤ), (c : ℤ))).foldl
          (dtwProcessCell x y dist) D) (a, b) = gridCost x y dist ly n m a b := by
  intro m
  induction m with
  | zero => intro _ D hD a b; exact hD a b
  | succ m ih =>
    intro hm D hD a b
    have hmlt : m < ly := by omega
    rw [List.range_succ, List.map_append, List.foldl_append]
    set T := ((List.range m).map fun (c : ℕ) => ((n : ℤ), (c : ℤ))).foldl
      (dtwProcessCell x y dist) D with hT
    have hprev : ∀ a b : ℤ, costView T (a, b) = gridCost x y dist ly n m a b :=
      fun a b => ih (by omega) D hD a b
    show costView (dtwProcessCell x y dist T ((n : ℤ), (m : ℤ))) (a, b) = _
    rw [costView_process]
    by_cases hk : ((a, b) : ℤ × ℤ) = ((n : ℤ) + 1, (m : ℤ) + 1)
    · rw [if_pos hk]
      have hup : get_cost T (n : ℤ) ((m : ℤ) + 1) = dtwDP x y dist n (m + 1) := by
        rw [get_cost_costView, hprev]
        exact gridCost_up x y dist ly n m hmlt
      have hleft : get_cost T ((n : ℤ) + 1) (m : ℤ) = dtwDP x y dist (n + 1) m := by
        rw [get_cost_costView, hprev]
        exact gridCost_left x y dist ly n m
      have hcnr : get_cost T (n : ℤ) (m : ℤ) = dtwDP x y dist n m := by
        rw [get_cost_costView, hprev]
        exact gridCost_cnr x y dist ly n m hmlt
      rw [hup, hleft, hcnr, elem_natCast, elem_natCast]
      have hab : a = (n : ℤ) + 1 ∧ b = (m : ℤ) + 1 := by
        rw [Prod.mk.injEq] at hk
        exact hk
      rw [hab.1, hab.2, gridCost_target x y dist ly n m hmlt]
      congr 1
      rw [dtwDP_succ_succ]
      exact add_comm _ _
    · rw [if_neg hk]
      rw [hprev a b]
      refine gridCost_mono_m x y dist ly n m a b ?_
      intro hcon
      exact hk (by rw [Prod.mk.injEq]; exact hcon)

theorem fullWindow_succ (lx ly : ℕ) :
    fullWindow (lx + 1) ly =
      fullWindow lx ly ++ (List.range ly).map fun (c : ℕ) => ((lx : ℤ), (c : ℤ)) := by
  unfold fullWindow
  rw [List.range_succ, List.flatMap_append]
  simp

theorem fullWindow_grid (x y : List ℚ) (dist : ℚ → ℚ → ℚ) (ly : ℕ) :
    ∀ (lx : ℕ) (a b : ℤ),
      costView (dtwTable x y (fullWindow lx ly) dist) (a, b) =
        gridCost x y dist ly lx 0 a b := by
  intro lx
  induction lx with
  | zero =>
    intro a b
    have h0 : fullWindow 0 ly = [] := by
      unfold fullWindow
      simp
    rw [h0]
    show costView initTable (a, b) = _
    unfold costView
    by_cases hk : ((a, b) : ℤ × ℤ) = (0, 0)
    · rw [hk]
      have hab : a = 0 ∧ b = 0 := by
        rw [Prod.mk.injEq] at hk
        exact hk
      unfold gridCost
      rw [if_pos ⟨hab.1, hab.2⟩]
      rfl
    · rw [tableGet_init _ hk]
      have hab : ¬(a = 0 ∧ b = 0) := by
        intro hcon
        exact hk (by rw [Prod.mk.injEq]; exact hcon)
      unfold gridCost
      rw [if_neg hab, if_neg (by omega), if_neg (by omega)]
      rfl
  | succ n ih =>
    intro a b
    show costView ((fullWindow (n + 1) ly).foldl (dtwProcessCell x y dist) initTable) (a, b) = _
    rw [fullWindow_succ, List.foldl_append]
    have := rowFold x y dist ly n ly (le_refl ly)
      ((fullWindow n ly).foldl (dtwProcessCell x y dist) initTable)
      (fun a b => ih a b) a b
    rw [this]
    exact gridCost_turnover x y dist ly n a b

theorem lookupEntry_cost_costView (D : CostTable) (a b : ℤ) (c : Cost)
    (h : costView D (a, b) = some c) : (lookupEntry D a b).cost = c := by
  unfold costView at h
  unfold lookupEntry
  cases htg : tableGet D (a, b) with
  | none =>
    rw [htg] at h
    exact absurd h (by simp)
  | some e =>
    rw [htg] at h
    have h' : some e.cost = some c := h
    exact Option.some.inj h'

theorem dtw_none_cost (x y : List ℚ) (dist : ℚ → ℚ → ℚ)
    (hx : 1 ≤ x.length) (hy : 1 ≤ y.length) :
    (dtw x y none dist).1 = dtwDP x y dist x.length y.length := by
  show (lookupEntry (dtwTable x y (fullWindow x.length y.length) dist)
      (x.length : ℤ) (y.length : ℤ)).cost = _
  have hgv := fullWindow_grid x y dist y.length x.length (x.length : ℤ) (y.length : ℤ)
  have hg : gridCost x y dist y.length x.length 0 (x.length : ℤ) (y.length : ℤ) =
      some (dtwDP x y dist x.length y.length) := by
    unfold gridCost
    rw [if_neg (by omega), if_pos (by omega)]
    simp only [Int.toNat_natCast]
  rw [hg] at hgv
  exact lookupEntry_cost_costView _ _ _ _ hgv

theorem dtw_none_degenerate (x y : List ℚ) (dist : ℚ → ℚ → ℚ)
    (h : x.length = 0 ∨ y.length = 0) : (dtw x y none dist).1 = 0 := by
  have hfw : fullWindow x.length y.length = [] := by
    unfold fullWindow
    rcases h with h | h <;> rw [h] <;> simp
  show (lookupEntry (dtwTable x y (fullWindow x.length y.length) dist)
      (x.length : ℤ) (y.length : ℤ)).cost = 0
  rw [hfw]
  show (lookupEntry initTable (x.length : ℤ) (y.length : ℤ)).cost = 0
  unfold lookupEntry
  by_cases hk : (((x.length : ℤ), (y.length : ℤ)) : ℤ × ℤ) = (0, 0)
  · rw [hk]
    rfl
  · rw [tableGet_init _ hk]
    rfl

theorem dtw_none_le_phi (x y : List ℚ) (dist : ℚ → ℚ → ℚ) (hd : ∀ a b, 0 ≤ dist a b) :
    (dtw x y none dist).1 ≤ phi x y dist ((x.length : ℤ), (y.length : ℤ)) := by
  by_cases hdeg : x.length = 0 ∨ y.length = 0
  · rw [dtw_none_degenerate x y dist hdeg]
    exact phi_nonneg x y dist hd _
  · push_neg at hdeg
    have hx : 1 ≤ x.length := by omega
    have hy : 1 ≤ y.length := by omega
    rw [dtw_none_cost x y dist hx hy,
      phi_pos x y dist _ (by intro hcon; rw [Prod.mk.injEq] at hcon; omega)
        (by show (0 : ℤ) ≤ (x.length : ℤ); omega)
        (by show (0 : ℤ) ≤ (y.length : ℤ); omega)]
    have h1 : max ((x.length : ℤ)) 1 = (x.length : ℤ) :=
      max_eq_left (by exact_mod_cast hx)
    have h2 : max ((y.length : ℤ)) 1 = (y.length : ℤ) :=
      max_eq_left (by exact_mod_cast hy)
    show dtwDP x y dist x.length y.length ≤
      dtwDP x y dist (max ((x.length : ℤ)) 1).toNat (max ((y.length : ℤ)) 1).toNat
    rw [h1, h2]
    simp only [Int.toNat_natCast]
    exact le_refl _

theorem dtw_window_cases (x y : List ℚ) (w : List (ℤ × ℤ)) (dist : ℚ → ℚ → ℚ)
    (hd : ∀ a b, 0 ≤ dist a b) :
    (dtw x y none dist).1 ≤ (dtw x y (some w) dist).1 ∨ (dtw x y (some w) dist).1 = 0 := by
  have hcost : (dtw x y (some w) dist).1 =
      (lookupEntry (dtwTable x y w dist) (x.length : ℤ) (y.length : ℤ)).cost := rfl
  cases htg : tableGet (dtwTable x y w dist) (((x.length : ℤ), (y.length : ℤ))) with
  | none =>
    right
    rw [hcost]
    unfold lookupEntry
    rw [htg]
    rfl
  | some e =>
    left
    have hphi := dtwTable_phi x y dist hd w _ e htg
    have hres : (dtw x y (some w) dist).1 = e.cost := by
      rw [hcost]
      unfold lookupEntry
      rw [htg]
      rfl
    rw [hres]
    exact le_trans (dtw_none_le_phi x y dist hd) hphi

theorem fastdtwAux_structure (dist : ℚ → ℚ → ℚ) (fuel : ℕ) (x y : List ℚ) (r : ℤ)
    (res : Cost × List (ℤ × ℤ)) (h : fastdtwAux dist fuel x y r = some res) :
    res = dtw x y none dist ∨ ∃ w, res = dtw x y (some w) dist := by
  cases fuel with
  | zero => simp [fastdtwAux] at h
  | succ f =>
    unfold fastdtwAux at h
    split at h
    · left
      exact (Option.some.inj h).symm
    · split at h
      · exact absurd h (by simp)
      · right
        exact ⟨_, (Option.some.inj h).symm⟩

/-- C4 counterexample: at `x = [0, 1, 2, 3, 4]`, `y = [0, 0, 0, 0, 0]` with the
default distance, `fastdtw` at radius 0 returns cost 0 while at radius 1 it
returns 10, the exact cost: the approximate cost strictly increases as the
radius grows from 0 to 1 (refuting monotone non-increase), and the radius-0
cost 0 strictly undershoots the exact cost 10 (refuting `fastdtw cost ≥ exact
cost`).  The radius-0 final window never populates the terminal cell, and the
defaulting `std::map::operator[]` read reports the value-initialized cost 0. -/
theorem C4_counterexample :
    fastdtw [0, 1, 2, 3, 4] [0, 0, 0, 0, 0] 0 defaultDist =
        some (0, [((4 : ℤ), (4 : ℤ))]) ∧
    fastdtw [0, 1, 2, 3, 4] [0, 0, 0, 0, 0] 1 defaultDist =
        some (10, [((0 : ℤ), (0 : ℤ)), (1, 1), (2, 2), (3, 3), (4, 4)]) ∧
    dtw [0, 1, 2, 3, 4] [0, 0, 0, 0, 0] none defaultDist =
        (10, [((0 : ℤ), (0 : ℤ)), (1, 1), (2, 2), (3, 3), (4, 4)]) ∧
    (0 : Cost) < 10 := by
  refine ⟨?_, ?_, ?_, ?_⟩
  · with_unfolding_all rfl
  · with_unfolding_all rfl
  · with_unfolding_all rfl
  · exact_mod_cast (by norm_num : (0 : ℚ) < 10)

/-- C4 (amended): the claimed monotonicity in the radius is false and the
claimed `fastdtw cost ≥ exact cost` holds only up to the defaulted terminal
read.  What is true: (1) for every window, when the distance is nonnegative
the windowed `dtw` cost is at least the exact (`window = None`) cost, unless
the window never populates the terminal cell, in which case the defaulting
`operator[]` makes the windowed cost the value-initialized 0; and (2) every
successful `fastdtw` result is itself a `dtw` result — exact at the base case,
windowed otherwise — so the same lower bound governs `fastdtw`. -/
theorem C4_amended_lower_bound :
    (∀ (x y : List ℚ) (w : List (ℤ × ℤ)) (dist : ℚ → ℚ → ℚ),
        (∀ a b, 0 ≤ dist a b) →
        (dtw x y none dist).1 ≤ (dtw x y (some w) dist).1 ∨
          (dtw x y (some w) dist).1 = 0) ∧
    (∀ (x y : List ℚ) (r : ℤ) (dist : ℚ → ℚ → ℚ) (res : Cost × List (ℤ × ℤ)),
        fastdtw x y r dist = some res →
        res = dtw x y none dist ∨ ∃ w, res = dtw x y (some w) dist) := by
  constructor
  · exact fun x y w dist hd => dtw_window_cases x y w dist hd
  · exact fun x y r dist res h => fastdtwAux_structure dist (x.length + 1) x y r res h

theorem C4_witness :
    ((dtw [(0 : ℚ)] [(0 : ℚ)] none defaultDist).1 ≤
        (dtw [(0 : ℚ)] [(0 : ℚ)] (some [((0 : ℤ), (0 : ℤ))]) defaultDist).1 ∨
      (dtw [(0 : ℚ)] [(0 : ℚ)] (some [((0 : ℤ), (0 : ℤ))]) defaultDist).1 = 0) ∧
    (((2 : Cost), [((0 : ℤ), (0 : ℤ))]) = dtw [(0 : ℚ)] [(2 : ℚ)] none defaultDist ∨
      ∃ w, ((2 : Cost), [((0 : ℤ), (0 : ℤ))]) = dtw [(0 : ℚ)] [(2 : ℚ)] (some w) defaultDist) := by
  constructor
  · exact C4_amended_lower_bound.1 [(0 : ℚ)] [(0 : ℚ)] [((0 : ℤ), (0 : ℤ))] defaultDist
      (fun a b => abs_nonneg (a - b))
  · exact C4_amended_lower_bound.2 [(0 : ℚ)] [(2 : ℚ)] 1 defaultDist
      ((2 : Cost), [((0 : ℤ), (0 : ℤ))]) (by with_unfolding_all rfl)

end FastDTW
